import Mathlib

/-!
# Action hooks of lazygit: hook matcher/runner and completion coordinator

A shallow embedding of

* `pkg/gui/actionhooks/manager.go` (`matchHooks`, `runCommands`, `ExecuteBefore`,
  `ExecuteAfter`),
* `pkg/gui/actionhooks_state.go` (`startActionHookExecution`,
  `registerActionHookCompletion` and the closure it returns,
  `finalizeActionHookExecution`, `abortActionHookExecution`), and
* `pkg/gui/gui_common.go` (`RunSubprocess`).

Conventions of the embedding.

* A Go `string` is a Lean `String` (a sequence of Unicode code points).
* A Go pointer that may be `nil` is an `Option`; `error` is `Option GoError`.
* `*Execution` values are compared by identity in the source; the embedding gives every
  `Execution` the address `addr` of its allocation and compares addresses.
* Every operation of the coordinator runs under `actionHookState.mutex` from its first to
  its last statement (the unlock is deferred), so the operations are atomic steps on the
  state and are embedded as functions `Gui → Gui × result`.  Where the order of locking and
  effects matters, `withMutex` adds the lock and unlock events around such a step.
* Shell execution is an effect.  It is embedded by a trace of events that is threaded
  through the functions, and by a runner that decides the outcome of a command from the
  command and the events so far.
* `pending` is a Go `int`.  It changes by one per operation, so it stays far from the
  bounds of the machine type (reaching them takes `2^63` registrations); it is embedded as
  an unbounded `Int` and no wrap-around is modelled.
-/

namespace Lazygit

/-! ## The Go string functions used by the matcher -/

/-- The case tables of Go's `unicode` package for runes outside ASCII: `ToLower` is
`unicode.ToLower`, and `SimpleFold a b` says that `b` is on the `unicode.SimpleFold` orbit
of `a`.  Inside ASCII the functions below do not consult the tables. -/
structure UnicodeTables where
  ToLower : Char → Char
  SimpleFold : Char → Char → Bool

/-- Tables that leave every rune outside ASCII alone. -/
def UnicodeTables.trivial : UnicodeTables :=
  ⟨fun c => c, fun a b => a == b⟩

/-- Go's `unicode.IsSpace`. -/
def isSpace (c : Char) : Bool :=
  let n := c.toNat
  n == 0x09 || n == 0x0A || n == 0x0B || n == 0x0C || n == 0x0D || n == 0x20 ||
  n == 0x85 || n == 0xA0 || n == 0x1680 || (0x2000 ≤ n && n ≤ 0x200A) ||
  n == 0x2028 || n == 0x2029 || n == 0x202F || n == 0x205F || n == 0x3000

/-- Go's `strings.TrimSpace`: drop the leading and the trailing white space. -/
def TrimSpace (s : String) : String :=
  String.mk ((s.data.dropWhile isSpace).reverse.dropWhile isSpace).reverse

/-- Lower-case mapping of one rune: `'A'..'Z'` to `'a'..'z'` inside ASCII, the table
outside. -/
def lowerRune (U : UnicodeTables) (c : Char) : Char :=
  if c.toNat < 128 then c.toLower else U.ToLower c

/-- Go's `strings.ToLower`. -/
def ToLower (U : UnicodeTables) (s : String) : String :=
  String.mk (s.data.map (lowerRune U))

/-- Two runes are equal under simple case folding (the rune step of `strings.EqualFold`). -/
def foldRune (U : UnicodeTables) (a b : Char) : Bool :=
  a == b ||
    (if a.toNat < 128 ∧ b.toNat < 128 then a.toLower == b.toLower else U.SimpleFold a b)

/-- Rune-wise comparison of `strings.EqualFold`. -/
def equalFoldRunes (U : UnicodeTables) : List Char → List Char → Bool
  | [], [] => true
  | a :: s, b :: t => foldRune U a b && equalFoldRunes U s t
  | _, _ => false

/-- Go's `strings.EqualFold`. -/
def EqualFold (U : UnicodeTables) (s t : String) : Bool :=
  equalFoldRunes U s.data t.data

/-! ## Configuration -/

/-- Modelled from the spec: the declaration of `config.ActionHook` is not among the source
files; the fields are the ones `manager.go` reads and section 3 of the specification lists
(context, key, before, after, logOutput, abortOnSuccess, abortMessage). -/
structure ActionHook where
  Context : String
  Key : String
  Before : String
  After : String
  LogOutput : Bool
  AbortOnSuccess : Bool
  AbortMessage : String
  deriving DecidableEq, Repr

/-- Modelled from the spec: the part of `config.OSConfig` read by `runCommands`. -/
structure OSConfig where
  ShellFunctionsFile : String
  deriving DecidableEq, Repr

/-- Modelled from the spec: the part of `config.UserConfig` read by `manager.go`. -/
structure UserConfig where
  ActionHooks : List ActionHook
  OS : OSConfig
  deriving DecidableEq, Repr

/-! ## Commands, events, errors -/

def envContextKey : String := "LAZYGIT_ACTION_CONTEXT"

def envKeyLabel : String := "LAZYGIT_ACTION_KEY"

def envPhase : String := "LAZYGIT_ACTION_PHASE"

def phaseBefore : String := "before"

def phaseAfter : String := "after"

def DefaultAbortMessage : String := "Action aborted by hook"

/-- What `runCommands` does to build one command object: `Cmd.NewShell(command,
shellFunctionsFile)`, then `DontLog()` unless the hook logs, then `AddEnvVars(envs...)`. -/
structure CmdObj where
  command : String
  shellFunctionsFile : String
  dontLog : Bool
  envVars : List String
  deriving DecidableEq, Repr

/-- An entry of the trace: `run cmdObj` is one `cmdObj.RunWithOutput()`; `after addr`
records that `ExecuteAfter` was entered on the (non-nil) Execution allocated at `addr`. -/
inductive Event where
  | run (cmdObj : CmdObj)
  | after (addr : Nat)
  deriving DecidableEq, Repr

/-- The result of `RunWithOutput()`: the captured output and the error (its text), if any. -/
structure RunResult where
  output : String
  err : Option String
  deriving DecidableEq, Repr

/-- The command runner behind `osCommand`: the outcome of a command may depend on the
command and on everything that happened before. -/
abbrev Runner := List Event → CmdObj → RunResult

/-- The errors `runCommands` returns: `fmt.Errorf` with `%s` (only a text), `fmt.Errorf`
with `%w` (a text and the wrapped error), and `AbortError`. -/
inductive GoError where
  | errorf (text : String)
  | wrapf (text : String) (wrapped : String)
  | AbortError (Message : String)
  deriving DecidableEq, Repr

/-! ## `manager.go` -/

/-- The `Manager`: `cfgProvider()` yields the user configuration (or `nil`), `osCommand`
runs commands. -/
structure Manager where
  cfgProvider : Unit → Option UserConfig
  osCommand : Runner

/-- An `Execution`, together with the address of its allocation. -/
structure Execution where
  addr : Nat
  manager : Manager
  hooks : List ActionHook
  contextKey : String
  keyLabel : String

/-- The loop of `matchHooks` over `cfg.ActionHooks`; `keyLabel` is already normalised and
`matched` is the slice `matches` built so far. -/
def matchLoop (U : UnicodeTables) (contextKey keyLabel : String) :
    List ActionHook → List ActionHook → List ActionHook
  | [], matched => matched
  | hook :: rest, matched =>
    let hookKey := TrimSpace (ToLower U hook.Key)
    if hookKey = "" ∨ hookKey ≠ keyLabel then
      matchLoop U contextKey keyLabel rest matched
    else
      let hookContext := TrimSpace (ToLower U hook.Context)
      if hookContext ≠ "" ∧ EqualFold U hookContext contextKey = false then
        matchLoop U contextKey keyLabel rest matched
      else if TrimSpace hook.Before = "" ∧ TrimSpace hook.After = "" then
        matchLoop U contextKey keyLabel rest matched
      else
        matchLoop U contextKey keyLabel rest (matched ++ [hook])

/-- Method `Manager.matchHooks`.  The source returns pointers into `cfg.ActionHooks`; the
embedding returns the definitions pointed to. -/
def Manager.matchHooks (U : UnicodeTables) (m : Manager) (contextKey keyLabel : String) :
    List ActionHook :=
  match m.cfgProvider () with
  | none => []
  | some cfg =>
    if cfg.ActionHooks.length = 0 then []
    else
      let keyLabel := TrimSpace (ToLower U keyLabel)
      if keyLabel = "" then []
      else matchLoop U contextKey keyLabel cfg.ActionHooks []

/-- The loop of `runCommands` over `hooks`, on the trace `t`. -/
def runLoop (osCommand : Runner) (shellFunctionsFile phase contextKey keyLabel : String) :
    List ActionHook → List Event → List Event × Option GoError
  | [], t => (t, none)
  | hook :: rest, t =>
    let command :=
      if phase = phaseBefore then hook.Before
      else if phase = phaseAfter then hook.After
      else ""
    let command := TrimSpace command
    if command = "" then
      runLoop osCommand shellFunctionsFile phase contextKey keyLabel rest t
    else
      let cmdObj : CmdObj :=
        { command := command
          shellFunctionsFile := shellFunctionsFile
          dontLog := !hook.LogOutput
          envVars :=
            [envContextKey ++ "=" ++ contextKey,
             envKeyLabel ++ "=" ++ keyLabel,
             envPhase ++ "=" ++ phase] }
      let res := osCommand t cmdObj
      let t := t ++ [Event.run cmdObj]
      match res.err with
      | some err =>
        let trimmed := TrimSpace res.output
        if trimmed ≠ "" then
          (t, some (GoError.errorf ("action hook (" ++ phase ++ ") failed: " ++ trimmed)))
        else
          (t, some (GoError.wrapf ("action hook (" ++ phase ++ ") failed: " ++ err) err))
      | none =>
        if hook.AbortOnSuccess then
          let message := TrimSpace hook.AbortMessage
          let message := if message = "" then DefaultAbortMessage else message
          (t, some (GoError.AbortError message))
        else
          runLoop osCommand shellFunctionsFile phase contextKey keyLabel rest t

/-- Method `Manager.runCommands`. -/
def Manager.runCommands (m : Manager) (hooks : List ActionHook)
    (phase contextKey keyLabel : String) (t : List Event) : List Event × Option GoError :=
  let shellFunctionsFile :=
    match m.cfgProvider () with
    | none => ""
    | some cfg => cfg.OS.ShellFunctionsFile
  runLoop m.osCommand shellFunctionsFile phase contextKey keyLabel hooks t

/-- Method `Manager.ExecuteBefore`; `addr` is the address at which the new `Execution` is
allocated when one is returned. -/
def Manager.ExecuteBefore (U : UnicodeTables) (m : Manager) (addr : Nat)
    (contextKey keyLabel : String) (t : List Event) :
    List Event × Option Execution × Option GoError :=
  let hooks := m.matchHooks U contextKey keyLabel
  if hooks.length = 0 then (t, none, none)
  else
    let r := m.runCommands hooks phaseBefore contextKey keyLabel t
    match r.2 with
    | some err => (r.1, none, some err)
    | none =>
      (r.1,
        some { addr := addr, manager := m, hooks := hooks,
               contextKey := contextKey, keyLabel := keyLabel },
        none)

/-- Method `Execution.ExecuteAfter` on a receiver that may be `nil`. -/
def ExecuteAfter (e : Option Execution) (t : List Event) : List Event × Option GoError :=
  match e with
  | none => (t, none)
  | some e =>
    e.manager.runCommands e.hooks phaseAfter e.contextKey e.keyLabel
      (t ++ [Event.after e.addr])

/-! ## `actionhooks_state.go` -/

/-- The coordinator state (the mutex is not a field: see the conventions above). -/
structure actionHookState where
  execution : Option Execution
  pending : Int
  completed : Bool

/-- The part of `Gui` the coordinator works on, and the trace of the effects so far. -/
structure Gui where
  actionHookState : actionHookState
  trace : List Event

/-- Identity comparison of two `*Execution` values. -/
def samePtr : Option Execution → Option Execution → Bool
  | none, none => true
  | some a, some b => a.addr == b.addr
  | _, _ => false

/-- The zero value of the state, as in `&Gui{...}`. -/
def actionHookState.zero : actionHookState :=
  { execution := none, pending := 0, completed := false }

/-- Function `startActionHookExecution`. -/
def startActionHookExecution (execution : Option Execution) (gui : Gui) : Gui :=
  { gui with
    actionHookState :=
      { execution := execution, pending := 0, completed := execution.isNone } }

/-- The closure returned by `registerActionHookCompletion`: it captures `gui` (the state
it is applied to) and `exec`. -/
structure Completion where
  exec : Execution

/-- Function `registerActionHookCompletion`; `none` is the `nil` callback. -/
def registerActionHookCompletion (gui : Gui) : Gui × Option Completion :=
  let state := gui.actionHookState
  match state.execution with
  | none => (gui, none)
  | some exec =>
    if state.completed then (gui, none)
    else
      ({ gui with actionHookState := { state with pending := state.pending + 1 } },
        some { exec := exec })

/-- The body of the closure returned by `registerActionHookCompletion`. -/
def Completion.call (c : Completion) (success : Bool) (gui : Gui) : Gui × Option GoError :=
  let state := gui.actionHookState
  if samePtr state.execution (some c.exec) = false ∨ state.completed then (gui, none)
  else
    let state := { state with pending := state.pending - 1 }
    if success = false then
      if state.pending = 0 then
        ({ gui with actionHookState := { state with execution := none, completed := true } },
          none)
      else ({ gui with actionHookState := state }, none)
    else if state.pending = 0 then
      let r := ExecuteAfter (some c.exec) gui.trace
      ({ actionHookState := { state with execution := none, completed := true },
         trace := r.1 }, r.2)
    else ({ gui with actionHookState := state }, none)

/-- Function `finalizeActionHookExecution`. -/
def finalizeActionHookExecution (gui : Gui) : Gui × Option GoError :=
  let state := gui.actionHookState
  match state.execution with
  | none => (gui, none)
  | some exec =>
    if state.completed then (gui, none)
    else if state.pending > 0 then (gui, none)
    else
      let r := ExecuteAfter (some exec) gui.trace
      ({ actionHookState := { state with execution := none, completed := true },
         trace := r.1 }, r.2)

/-- Function `abortActionHookExecution`. -/
def abortActionHookExecution (gui : Gui) : Gui :=
  { gui with actionHookState := { execution := none, pending := 0, completed := true } }

/-! ## Sequences of coordinator operations -/

/-- One operation on the coordinator other than `start`: a registration, an invocation of
some completion callback with a success value, `finalize`, or `abort`. -/
inductive Op where
  | register
  | invoke (c : Completion) (success : Bool)
  | finalize
  | abort

/-- The state after one operation. -/
def Op.apply : Op → Gui → Gui
  | Op.register, gui => (registerActionHookCompletion gui).1
  | Op.invoke c success, gui => (c.call success gui).1
  | Op.finalize, gui => (finalizeActionHookExecution gui).1
  | Op.abort, gui => abortActionHookExecution gui

/-- The state after a sequence of operations, first to last. -/
def runOps : List Op → Gui → Gui
  | [], gui => gui
  | op :: ops, gui => runOps ops (op.apply gui)

/-- The number of `ExecuteAfter` calls recorded in a trace. -/
def afterCalls : List Event → Nat
  | [] => 0
  | Event.after _ :: t => afterCalls t + 1
  | Event.run _ :: t => afterCalls t

/-- The number of `ExecuteAfter` calls on the Execution at `addr` recorded in a trace. -/
def afterCallsOf (addr : Nat) : List Event → Nat
  | [] => 0
  | Event.after a :: t => if a = addr then afterCallsOf addr t + 1 else afterCallsOf addr t
  | Event.run _ :: t => afterCallsOf addr t

/-- The command objects `runCommands` builds for `hooks` in `phase` when it gets through
the whole list: one for every definition whose command for the phase is not blank. -/
def plannedCommands (shellFunctionsFile phase contextKey keyLabel : String)
    (hooks : List ActionHook) : List CmdObj :=
  hooks.filterMap fun hook =>
    let command :=
      TrimSpace
        (if phase = phaseBefore then hook.Before
         else if phase = phaseAfter then hook.After
         else "")
    if command = "" then none
    else
      some
        { command := command
          shellFunctionsFile := shellFunctionsFile
          dontLog := !hook.LogOutput
          envVars :=
            [envContextKey ++ "=" ++ contextKey,
             envKeyLabel ++ "=" ++ keyLabel,
             envPhase ++ "=" ++ phase] }

/-- The shell functions file `runCommands` reads from the configuration. -/
def Manager.shellFunctionsFile (m : Manager) : String :=
  match m.cfgProvider () with
  | none => ""
  | some cfg => cfg.OS.ShellFunctionsFile

/-- The matching rule in the words of the specification: the trimmed, lower-cased key of
the definition is non-empty and equals the trimmed, lower-cased query key; its trimmed,
lower-cased context is empty or equals the query context ignoring case; and its two
commands are not both empty after trimming. -/
def hookMatches (U : UnicodeTables) (contextKey keyLabel : String) (hook : ActionHook) :
    Prop :=
  (TrimSpace (ToLower U hook.Key) ≠ "" ∧
    TrimSpace (ToLower U hook.Key) = TrimSpace (ToLower U keyLabel)) ∧
  (TrimSpace (ToLower U hook.Context) = "" ∨
    EqualFold U (TrimSpace (ToLower U hook.Context)) contextKey = true) ∧
  ¬ (TrimSpace hook.Before = "" ∧ TrimSpace hook.After = "")

instance hookMatchesDecidable (U : UnicodeTables) (contextKey keyLabel : String)
    (hook : ActionHook) : Decidable (hookMatches U contextKey keyLabel hook) := by
  unfold hookMatches
  infer_instance

/-- The configured list of hook definitions: `cfg.ActionHooks`, and nothing when there is
no configuration. -/
def Manager.configured (m : Manager) : List ActionHook :=
  match m.cfgProvider () with
  | none => []
  | some cfg => cfg.ActionHooks

/-- A query key is blank: it consists of ASCII white space only (or is empty). -/
def isBlank (s : String) : Prop :=
  ∀ c ∈ s.data, c.toNat < 128 ∧ isSpace c = true

/-- The command of a definition for a phase, trimmed (the `switch` of `runCommands`
followed by `strings.TrimSpace`). -/
def phaseCommand (phase : String) (hook : ActionHook) : String :=
  TrimSpace
    (if phase = phaseBefore then hook.Before
     else if phase = phaseAfter then hook.After
     else "")

/-- The command object `runCommands` builds for a definition whose command for the phase
is not blank. -/
def buildCmdObj (shellFunctionsFile phase contextKey keyLabel : String) (hook : ActionHook) :
    CmdObj :=
  { command := phaseCommand phase hook
    shellFunctionsFile := shellFunctionsFile
    dontLog := !hook.LogOutput
    envVars :=
      [envContextKey ++ "=" ++ contextKey,
       envKeyLabel ++ "=" ++ keyLabel,
       envPhase ++ "=" ++ phase] }

/-- The non-empty before-commands of `hooks`, in order, as the command objects of a query
`(contextKey, keyLabel)`. -/
def beforeCommands (m : Manager) (contextKey keyLabel : String) (hooks : List ActionHook) :
    List CmdObj :=
  hooks.filterMap fun hook =>
    if TrimSpace hook.Before = "" then none
    else
      some
        { command := TrimSpace hook.Before
          shellFunctionsFile := m.shellFunctionsFile
          dontLog := !hook.LogOutput
          envVars :=
            [envContextKey ++ "=" ++ contextKey,
             envKeyLabel ++ "=" ++ keyLabel,
             envPhase ++ "=" ++ phaseBefore] }

/-- The hook-failed error of a phase for a command that failed with `err` after writing
`output`: the text carries the trimmed output when that is not blank, and otherwise the
error wraps `err`. -/
def failureError (phase output err : String) : GoError :=
  if TrimSpace output ≠ "" then
    GoError.errorf ("action hook (" ++ phase ++ ") failed: " ++ TrimSpace output)
  else
    GoError.wrapf ("action hook (" ++ phase ++ ") failed: " ++ err) err

/-- The abort raised for a definition with `abortOnSuccess`: its trimmed `abortMessage`,
or the default message when that is empty. -/
def abortError (hook : ActionHook) : GoError :=
  GoError.AbortError
    (if TrimSpace hook.AbortMessage = "" then DefaultAbortMessage
     else TrimSpace hook.AbortMessage)

/-! ## Sessions: operations with the callbacks that were really returned -/

/-- One call made on the coordinator by its user.  `invoke i success` invokes the callback
that the `i`-th call of `registerActionHookCompletion` returned (nothing happens when that
call returned nil or was not made yet). -/
inductive Action where
  | start (e : Option Execution)
  | register
  | invoke (i : Nat) (success : Bool)
  | finalize
  | abort

/-- The coordinator together with the callbacks returned so far, in the order of the
registrations, and the addresses of the Executions given to `start` so far. -/
structure Session where
  gui : Gui
  issued : List (Option Completion)
  started : List Nat

/-- The session of a fresh `Gui`: the zero state, an empty trace, nothing issued. -/
def Session.initial : Session :=
  { gui := { actionHookState := actionHookState.zero, trace := [] }
    issued := []
    started := [] }

/-- The session after one call. -/
def Action.apply : Action → Session → Session
  | Action.start e, s =>
    { s with
      gui := startActionHookExecution e s.gui
      started :=
        match e with
        | none => s.started
        | some x => x.addr :: s.started }
  | Action.register, s =>
    { s with
      gui := (registerActionHookCompletion s.gui).1
      issued := s.issued ++ [(registerActionHookCompletion s.gui).2] }
  | Action.invoke i success, s =>
    match s.issued.get? i with
    | some (some c) => { s with gui := (c.call success s.gui).1 }
    | _ => s
  | Action.finalize, s => { s with gui := (finalizeActionHookExecution s.gui).1 }
  | Action.abort, s => { s with gui := abortActionHookExecution s.gui }

/-- The session after a sequence of calls, first to last. -/
def runActions : List Action → Session → Session
  | [], s => s
  | a :: as, s => runActions as (a.apply s)

/-- Every `start` in the sequence is given nil or an Execution at an address that no
earlier `start` (in `seen` or in the sequence) was given. -/
def freshStarts : List Nat → List Action → Prop
  | _, [] => True
  | seen, Action.start (some e) :: as => e.addr ∉ seen ∧ freshStarts (e.addr :: seen) as
  | seen, Action.start none :: as => freshStarts seen as
  | seen, Action.register :: as => freshStarts seen as
  | seen, Action.invoke _ _ :: as => freshStarts seen as
  | seen, Action.finalize :: as => freshStarts seen as
  | seen, Action.abort :: as => freshStarts seen as

/-- The bookkeeping of a session is consistent: `pending` is not negative; every callback
returned so far is bound to an Execution that was given to `start`, and so is the active
Execution; and while the active Execution is unresolved with nothing pending, no callback
bound to it has been returned. -/
def Session.consistent (s : Session) : Prop :=
  0 ≤ s.gui.actionHookState.pending ∧
  (∀ c, some c ∈ s.issued → c.exec.addr ∈ s.started) ∧
  (∀ x, s.gui.actionHookState.execution = some x → x.addr ∈ s.started) ∧
  (∀ x, s.gui.actionHookState.execution = some x →
    s.gui.actionHookState.completed = false →
    s.gui.actionHookState.pending = 0 →
    ∀ c, some c ∈ s.issued → c.exec.addr ≠ x.addr)

/-! ## The mutex -/

/-- What happens to and under `actionHookState.mutex` during one operation: the lock is
taken, released, or an effect (an entry of the trace) takes place. -/
inductive MutexEvent where
  | lock
  | unlock
  | effect (ev : Event)
  deriving DecidableEq, Repr

/-- The shape `mutex.Lock(); defer mutex.Unlock(); body` of the coordinator functions.
`body` is everything after the `defer` statement, the evaluation of the operand of
`return` included; the deferred unlock runs after that and before the function returns
to its caller. -/
def withMutex {α : Type} (body : Gui → Gui × α) (gui : Gui) : List MutexEvent × Gui × α :=
  let r := body gui
  (MutexEvent.lock ::
      ((r.1.trace.drop gui.trace.length).map MutexEvent.effect ++ [MutexEvent.unlock]),
    r.1, r.2)

/-- Function `finalizeActionHookExecution` with its locking. -/
def finalizeActionHookExecutionLocked (gui : Gui) :
    List MutexEvent × Gui × Option GoError :=
  withMutex finalizeActionHookExecution gui

/-- The closure returned by `registerActionHookCompletion`, with its locking. -/
def Completion.callLocked (c : Completion) (success : Bool) (gui : Gui) :
    List MutexEvent × Gui × Option GoError :=
  withMutex (c.call success) gui

/-- Whether the mutex is held after a sequence of events, given whether it was held
before. -/
def lockAfter : Bool → List MutexEvent → Bool
  | held, [] => held
  | _, MutexEvent.lock :: evs => lockAfter true evs
  | _, MutexEvent.unlock :: evs => lockAfter false evs
  | held, MutexEvent.effect _ :: evs => lockAfter held evs

/-- Whether the mutex is held after a sequence of events that starts with the mutex
free. -/
def lockHeld (evs : List MutexEvent) : Bool :=
  lockAfter false evs

/-! ## Variants of a query -/

/-- A string is ASCII: every rune is below 128. -/
def isAscii (s : String) : Prop :=
  ∀ c ∈ s.data, c.toNat < 128

/-- Two strings differ at most in the case of the letters `A` to `Z`. -/
def sameLetters (s t : String) : Prop :=
  s.data.map Char.toLower = t.data.map Char.toLower

/-! ## `gui_common.go` -/

/-- What `RunSubprocess` returns (`success`, `err`), the state it leaves, and a record of
the success values with which it invoked the completion callback, in order. -/
structure RunSubprocessResult where
  gui : Gui
  success : Bool
  err : Option GoError
  completionCalls : List Bool

/-- Method `guiCommon.RunSubprocess`.  The function `runSubprocessWithSuspense` of `Gui`
is not among the source files and is a parameter: given the command object and the state,
it yields the state after the subprocess, its success flag and its error (any error
value, nil when `none`). -/
def RunSubprocess (runSubprocessWithSuspense : CmdObj → Gui → Gui × Bool × Option GoError)
    (cmdObj : CmdObj) (gui : Gui) : RunSubprocessResult :=
  let r := registerActionHookCompletion gui
  let completion := r.2
  let sub := runSubprocessWithSuspense cmdObj r.1
  let success := sub.2.1
  let err := sub.2.2
  match completion with
  | some completion =>
    if err ≠ none ∨ success = false then
      { gui := (completion.call false sub.1).1
        success := success
        err := err
        completionCalls := [false] }
    else
      match (completion.call true sub.1).2 with
      | some compErr =>
        { gui := (completion.call true sub.1).1
          success := success
          err := some compErr
          completionCalls := [true] }
      | none =>
        { gui := (completion.call true sub.1).1
          success := success
          err := err
          completionCalls := [true] }
  | none =>
    { gui := sub.1
      success := success
      err := err
      completionCalls := [] }

/-! ## Sample data -/

/-- A manager whose configuration holds one hook definition and whose commands all
succeed with empty output. -/
def sampleManager : Manager :=
  { cfgProvider := fun _ =>
      some
        { ActionHooks :=
            [{ Context := "files", Key := "c", Before := "echo before", After := "echo after",
               LogOutput := false, AbortOnSuccess := false, AbortMessage := "" }]
          OS := { ShellFunctionsFile := "" } }
    osCommand := fun _ _ => { output := "", err := none } }

/-- The Execution that `ExecuteBefore "files" "c"` of `sampleManager` allocates at
address 1. -/
def sampleExecution : Execution :=
  { addr := 1
    manager := sampleManager
    hooks :=
      [{ Context := "files", Key := "c", Before := "echo before", After := "echo after",
         LogOutput := false, AbortOnSuccess := false, AbortMessage := "" }]
    contextKey := "files"
    keyLabel := "c" }

/-- A fresh `Gui`: the zero coordinator state and an empty trace. -/
def sampleGui : Gui :=
  { actionHookState := actionHookState.zero, trace := [] }

/-- A manager whose configuration holds two definitions with an after-command only, the
first of which has `abortOnSuccess` set; its commands all succeed with empty output. -/
def abortingManager : Manager :=
  { cfgProvider := fun _ =>
      some
        { ActionHooks :=
            [{ Context := "files", Key := "c", Before := "", After := "echo after1",
               LogOutput := false, AbortOnSuccess := true, AbortMessage := "" },
             { Context := "files", Key := "c", Before := "", After := "echo after2",
               LogOutput := false, AbortOnSuccess := false, AbortMessage := "" }]
          OS := { ShellFunctionsFile := "" } }
    osCommand := fun _ _ => { output := "", err := none } }

/-- The Execution that `ExecuteBefore "files" "c"` of `abortingManager` allocates at
address 2. -/
def abortingExecution : Execution :=
  { addr := 2
    manager := abortingManager
    hooks :=
      [{ Context := "files", Key := "c", Before := "", After := "echo after1",
         LogOutput := false, AbortOnSuccess := true, AbortMessage := "" },
       { Context := "files", Key := "c", Before := "", After := "echo after2",
         LogOutput := false, AbortOnSuccess := false, AbortMessage := "" }]
    contextKey := "files"
    keyLabel := "c" }

/-- A manager with two definitions: one whose context is padded with spaces, and one with
an empty context whose only command is a single space. -/
def paddedManager : Manager :=
  { cfgProvider := fun _ =>
      some
        { ActionHooks :=
            [{ Context := " files ", Key := "c", Before := "echo before", After := "",
               LogOutput := false, AbortOnSuccess := false, AbortMessage := "" },
             { Context := "", Key := "c", Before := " ", After := "",
               LogOutput := false, AbortOnSuccess := false, AbortMessage := "" }]
          OS := { ShellFunctionsFile := "" } }
    osCommand := fun _ _ => { output := "", err := none } }

/-- A manager with one definition that has `abortOnSuccess` set, whose command fails
with the output `" boom "`. -/
def failingManager : Manager :=
  { cfgProvider := fun _ =>
      some
        { ActionHooks :=
            [{ Context := "files", Key := "c", Before := "echo before", After := "",
               LogOutput := false, AbortOnSuccess := true, AbortMessage := "" }]
          OS := { ShellFunctionsFile := "" } }
    osCommand := fun _ _ => { output := " boom ", err := some "exit status 1" } }

/-- A manager with one definition that has `abortOnSuccess` set and an abort message
padded with spaces; its command succeeds. -/
def paddedAbortManager : Manager :=
  { cfgProvider := fun _ =>
      some
        { ActionHooks :=
            [{ Context := "files", Key := "c", Before := "echo before", After := "",
               LogOutput := false, AbortOnSuccess := true, AbortMessage := " stop it " }]
          OS := { ShellFunctionsFile := "" } }
    osCommand := fun _ _ => { output := "", err := none } }

/-- A subprocess that succeeds and leaves the coordinator alone. -/
def succeedingSubprocess : CmdObj → Gui → Gui × Bool × Option GoError :=
  fun _ gui => (gui, true, none)

/-! ## Traces -/

theorem afterCalls_append (s t : List Event) :
    afterCalls (s ++ t) = afterCalls s + afterCalls t := by
  induction s with
  | nil => simp [afterCalls]
  | cons ev s ih =>
    cases ev with
    | run c => simpa [afterCalls] using ih
    | after a => simp [afterCalls, ih]; omega

theorem afterCallsOf_append (addr : Nat) (s t : List Event) :
    afterCallsOf addr (s ++ t) = afterCallsOf addr s + afterCallsOf addr t := by
  induction s with
  | nil => simp [afterCallsOf]
  | cons ev s ih =>
    cases ev with
    | run c => simpa [afterCallsOf] using ih
    | after a =>
      by_cases h : a = addr <;> simp [afterCallsOf, ih, h]
      omega

theorem afterCalls_map_run (cs : List CmdObj) : afterCalls (cs.map Event.run) = 0 := by
  induction cs with
  | nil => rfl
  | cons c cs ih => simpa [afterCalls] using ih

theorem afterCallsOf_map_run (addr : Nat) (cs : List CmdObj) :
    afterCallsOf addr (cs.map Event.run) = 0 := by
  induction cs with
  | nil => rfl
  | cons c cs ih => simpa [afterCallsOf] using ih

/-- The loop of `runCommands` only appends `run` events to the trace. -/
theorem runLoop_trace (R : Runner) (sf phase ck kl : String) (hooks : List ActionHook)
    (t : List Event) :
    ∃ cs : List CmdObj, (runLoop R sf phase ck kl hooks t).1 = t ++ cs.map Event.run := by
  induction hooks generalizing t with
  | nil => exact ⟨[], by simp [runLoop]⟩
  | cons hook rest ih =>
    rw [runLoop]
    generalize TrimSpace (if phase = phaseBefore then hook.Before
      else if phase = phaseAfter then hook.After else "") = command
    simp only []
    split
    · exact ih t
    · split
      · split
        · exact ⟨[_], rfl⟩
        · exact ⟨[_], rfl⟩
      · split
        · exact ⟨[_], rfl⟩
        · obtain ⟨cs, hcs⟩ := ih (t ++ [Event.run _])
          exact ⟨_ :: cs, by rw [hcs, List.append_assoc]; rfl⟩

/-- A call of `ExecuteAfter` on a non-nil Execution appends its `after` event and then
only `run` events. -/
theorem ExecuteAfter_trace (e : Execution) (t : List Event) :
    ∃ cs : List CmdObj,
      (ExecuteAfter (some e) t).1 = t ++ Event.after e.addr :: cs.map Event.run := by
  obtain ⟨cs, hcs⟩ := runLoop_trace e.manager.osCommand
    (match e.manager.cfgProvider () with
      | none => ""
      | some cfg => cfg.OS.ShellFunctionsFile)
    phaseAfter e.contextKey e.keyLabel e.hooks (t ++ [Event.after e.addr])
  exact ⟨cs, by simp only [ExecuteAfter, Manager.runCommands]; rw [hcs]; simp⟩

theorem afterCalls_ExecuteAfter (e : Execution) (t : List Event) :
    afterCalls (ExecuteAfter (some e) t).1 = afterCalls t + 1 := by
  obtain ⟨cs, hcs⟩ := ExecuteAfter_trace e t
  rw [hcs, afterCalls_append]
  simp [afterCalls, afterCalls_map_run]

theorem afterCallsOf_ExecuteAfter (e : Execution) (t : List Event) :
    afterCallsOf e.addr (ExecuteAfter (some e) t).1 = afterCallsOf e.addr t + 1 := by
  obtain ⟨cs, hcs⟩ := ExecuteAfter_trace e t
  rw [hcs, afterCallsOf_append]
  simp [afterCallsOf, afterCallsOf_map_run]

/-! ## Steps of the coordinator on an active state -/

theorem register_active (e : Execution) (p : Int) (t : List Event) :
    registerActionHookCompletion ⟨⟨some e, p, false⟩, t⟩ =
      (⟨⟨some e, p + 1, false⟩, t⟩, some ⟨e⟩) := by
  simp [registerActionHookCompletion]

theorem call_active_more (e : Execution) (p : Int) (t : List Event) (b : Bool)
    (hp : p ≠ 1) :
    Completion.call ⟨e⟩ b ⟨⟨some e, p, false⟩, t⟩ = (⟨⟨some e, p - 1, false⟩, t⟩, none) := by
  have h : p - 1 ≠ 0 := by omega
  cases b <;> simp [Completion.call, samePtr, h]

theorem call_active_last_true (e : Execution) (t : List Event) :
    Completion.call ⟨e⟩ true ⟨⟨some e, 1, false⟩, t⟩ =
      (⟨⟨none, 0, true⟩, (ExecuteAfter (some e) t).1⟩, (ExecuteAfter (some e) t).2) := by
  simp [Completion.call, samePtr]

theorem call_active_last_false (e : Execution) (t : List Event) :
    Completion.call ⟨e⟩ false ⟨⟨some e, 1, false⟩, t⟩ = (⟨⟨none, 0, true⟩, t⟩, none) := by
  simp [Completion.call, samePtr]

theorem finalize_pending (gui : Gui) (h : 0 < gui.actionHookState.pending) :
    finalizeActionHookExecution gui = (gui, none) := by
  obtain ⟨⟨ex, p, c⟩, t⟩ := gui
  cases ex with
  | none => rfl
  | some e =>
    have hp : 0 < p := h
    simp [finalizeActionHookExecution, hp]

theorem registers_active (e : Execution) (t : List Event) (k : Nat) (p : Int) :
    runOps (List.replicate k Op.register) ⟨⟨some e, p, false⟩, t⟩ =
      ⟨⟨some e, p + k, false⟩, t⟩ := by
  induction k generalizing p with
  | zero => simp [runOps]
  | succ k ih =>
    simp only [List.replicate_succ, runOps, Op.apply, register_active, ih]
    congr 2
    push_cast
    omega

/-- While more completions are pending than are invoked, the invocations only count
down, whatever they report. -/
theorem invokes_active (e : Execution) (t : List Event) (bs : List Bool) (p : Int)
    (h : (bs.length : Int) < p) :
    runOps (bs.map (Op.invoke ⟨e⟩)) ⟨⟨some e, p, false⟩, t⟩ =
      ⟨⟨some e, p - bs.length, false⟩, t⟩ := by
  induction bs generalizing p with
  | nil => simp [runOps]
  | cons b bs ih =>
    simp only [List.length_cons, Nat.cast_add, Nat.cast_one] at h
    have hp : p ≠ 1 := by omega
    simp only [List.map_cons, runOps, Op.apply, call_active_more e p t b hp]
    rw [ih (p - 1) (by omega)]
    congr 2
    simp only [List.length_cons, Nat.cast_add, Nat.cast_one]
    omega

theorem start_some (e : Execution) (gui : Gui) :
    startActionHookExecution (some e) gui = ⟨⟨some e, 0, false⟩, gui.trace⟩ := rfl

theorem invokes_true_active (e : Execution) (t : List Event) (k : Nat) (p : Int)
    (h : (k : Int) < p) :
    runOps (List.replicate k (Op.invoke ⟨e⟩ true)) ⟨⟨some e, p, false⟩, t⟩ =
      ⟨⟨some e, p - k, false⟩, t⟩ := by
  have := invokes_active e t (List.replicate k true) p (by simpa using h)
  simpa using this

/-! ## Steps of the coordinator on a resolved or foreign state -/

/-- The guard of the closure: a callback whose Execution is not the active one, or that
finds the state completed, returns nil and changes nothing. -/
theorem call_noop (c : Completion) (b : Bool) (gui : Gui)
    (h : samePtr gui.actionHookState.execution (some c.exec) = false ∨
      gui.actionHookState.completed = true) :
    c.call b gui = (gui, none) := by
  simp [Completion.call, h]

theorem register_completed (gui : Gui) (h : gui.actionHookState.completed = true) :
    registerActionHookCompletion gui = (gui, none) := by
  obtain ⟨⟨ex, p, c⟩, t⟩ := gui
  have hc : c = true := h
  cases ex <;> simp [registerActionHookCompletion, hc]

theorem finalize_completed (gui : Gui) (h : gui.actionHookState.completed = true) :
    finalizeActionHookExecution gui = (gui, none) := by
  obtain ⟨⟨ex, p, c⟩, t⟩ := gui
  have hc : c = true := h
  cases ex <;> simp [finalizeActionHookExecution, hc]

/-- On a completed state no operation changes the trace, and the state stays completed. -/
theorem apply_completed (op : Op) (gui : Gui) (h : gui.actionHookState.completed = true) :
    (op.apply gui).trace = gui.trace ∧ (op.apply gui).actionHookState.completed = true := by
  cases op with
  | register => simp [Op.apply, register_completed gui h, h]
  | invoke c b => simp [Op.apply, call_noop c b gui (Or.inr h), h]
  | finalize => simp [Op.apply, finalize_completed gui h, h]
  | abort => simp [Op.apply, abortActionHookExecution]

theorem runOps_completed (ops : List Op) (gui : Gui)
    (h : gui.actionHookState.completed = true) :
    (runOps ops gui).trace = gui.trace ∧
      (runOps ops gui).actionHookState.completed = true := by
  induction ops generalizing gui with
  | nil => exact ⟨rfl, h⟩
  | cons op ops ih =>
    obtain ⟨ht, hc⟩ := apply_completed op gui h
    obtain ⟨ht2, hc2⟩ := ih (op.apply gui) hc
    exact ⟨by simp only [runOps]; rw [ht2, ht], by simpa only [runOps] using hc2⟩

/-- One operation either leaves the trace alone, or resolves the Execution and its effect
on the trace is one call of `ExecuteAfter`. -/
theorem apply_cases (op : Op) (gui : Gui) :
    (op.apply gui).trace = gui.trace ∨
      ((op.apply gui).actionHookState.completed = true ∧
        ∃ x : Execution, samePtr gui.actionHookState.execution (some x) = true ∧
          (op.apply gui).trace = (ExecuteAfter (some x) gui.trace).1) := by
  obtain ⟨⟨ex, p, c⟩, t⟩ := gui
  cases op with
  | register =>
    left
    cases ex <;> cases c <;> simp [Op.apply, registerActionHookCompletion]
  | invoke k b =>
    simp only [Op.apply, Completion.call]
    split
    · left; rfl
    · rename_i hg
      simp only [not_or, Bool.not_eq_false] at hg
      split
      · left; split <;> rfl
      · split
        · right; exact ⟨rfl, k.exec, hg.1, rfl⟩
        · left; rfl
  | finalize =>
    cases ex with
    | none => left; rfl
    | some e =>
      simp only [Op.apply, finalizeActionHookExecution]
      split
      · left; rfl
      · split
        · left; rfl
        · right; exact ⟨rfl, e, by simp [samePtr], rfl⟩
  | abort => left; rfl

/-- Over a sequence of operations without `start`, `ExecuteAfter` is called at most once,
on the active Execution, and the state is completed from then on. -/
theorem runOps_cases (ops : List Op) (gui : Gui) :
    (runOps ops gui).trace = gui.trace ∨
      ((runOps ops gui).actionHookState.completed = true ∧
        ∃ x : Execution, ∃ t : List Event, (runOps ops gui).trace
          = (ExecuteAfter (some x) t).1 ∧ t = gui.trace) := by
  induction ops generalizing gui with
  | nil => left; rfl
  | cons op ops ih =>
    simp only [runOps]
    rcases apply_cases op gui with h | ⟨hc, x, -, hx⟩
    · rcases ih (op.apply gui) with h2 | ⟨hc2, x, t, hx, ht⟩
      · left; rw [h2, h]
      · right; exact ⟨hc2, x, t, hx, by rw [ht, h]⟩
    · obtain ⟨ht2, hc2⟩ := runOps_completed ops (op.apply gui) hc
      right; exact ⟨hc2, x, gui.trace, by rw [ht2, hx], rfl⟩

theorem afterCallsOf_ExecuteAfter_le (a : Nat) (x : Execution) (t : List Event) :
    afterCallsOf a (ExecuteAfter (some x) t).1 ≤ afterCallsOf a t + 1 := by
  obtain ⟨cs, hcs⟩ := ExecuteAfter_trace x t
  rw [hcs, afterCallsOf_append]
  by_cases h : x.addr = a <;> simp [afterCallsOf, afterCallsOf_map_run, h]

/-- The loop of `runCommands` runs a prefix of the planned commands, and all of them when
it returns nil. -/
theorem runLoop_planned (R : Runner) (sf phase ck kl : String) (hooks : List ActionHook)
    (t : List Event) :
    ∃ cs : List CmdObj,
      (runLoop R sf phase ck kl hooks t).1 = t ++ cs.map Event.run ∧
      cs <+: plannedCommands sf phase ck kl hooks ∧
      ((runLoop R sf phase ck kl hooks t).2 = none →
        cs = plannedCommands sf phase ck kl hooks) := by
  induction hooks generalizing t with
  | nil => exact ⟨[], by simp [runLoop], by simp [plannedCommands], fun _ => rfl⟩
  | cons hook rest ih =>
    rw [runLoop]
    simp only [plannedCommands, List.filterMap_cons]
    generalize TrimSpace (if phase = phaseBefore then hook.Before
      else if phase = phaseAfter then hook.After else "") = command
    by_cases hc : command = ""
    · simp only [hc, if_true]
      exact ih t
    · simp only [hc, if_false]
      split
      · split
        · exact ⟨[_], rfl, by simp [List.prefix_cons_iff], fun h => by simp at h⟩
        · exact ⟨[_], rfl, by simp [List.prefix_cons_iff], fun h => by simp at h⟩
      · split
        · exact ⟨[_], rfl, by simp [List.prefix_cons_iff], fun h => by simp at h⟩
        · obtain ⟨cs, hcs, hpre, hall⟩ := ih (t ++ [Event.run _])
          refine ⟨_ :: cs, by rw [hcs, List.append_assoc]; rfl, ?_, ?_⟩
          · exact (List.prefix_cons_inj _).2 hpre
          · intro h
            rw [hall h]
            rfl

/-- An operation other than `start` keeps the active Execution or clears it. -/
theorem apply_execution (op : Op) (gui : Gui) :
    (op.apply gui).actionHookState.execution = gui.actionHookState.execution ∨
      (op.apply gui).actionHookState.execution = none := by
  obtain ⟨⟨ex, p, c⟩, t⟩ := gui
  cases op with
  | register =>
    left
    cases ex <;> cases c <;> simp [Op.apply, registerActionHookCompletion]
  | invoke k b =>
    simp only [Op.apply, Completion.call]
    split
    · left; rfl
    · split
      · split
        · right; rfl
        · left; rfl
      · split
        · right; rfl
        · left; rfl
  | finalize =>
    cases ex with
    | none => left; rfl
    | some e =>
      simp only [Op.apply, finalizeActionHookExecution]
      split
      · left; rfl
      · split
        · left; rfl
        · right; rfl
  | abort => right; rfl

theorem samePtr_none (x : Option Execution) (e : Execution) (h : x = none) :
    samePtr x (some e) = false := by
  subst h
  rfl

/-- Without a `start`, an Execution that is not the active one does not become active. -/
theorem runOps_foreign (ops : List Op) (gui : Gui) (e : Execution)
    (h : samePtr gui.actionHookState.execution (some e) = false) :
    samePtr (runOps ops gui).actionHookState.execution (some e) = false := by
  induction ops generalizing gui with
  | nil => exact h
  | cons op ops ih =>
    apply ih
    rcases apply_execution op gui with h1 | h1
    · rw [h1]; exact h
    · exact samePtr_none _ e h1

/-! ## The matcher -/

/-- The loop of `matchHooks` appends, in order, the definitions that satisfy the matching
rule for the normalised key. -/
theorem matchLoop_eq_filter (U : UnicodeTables) (ck kl : String) (hooks acc : List ActionHook) :
    matchLoop U ck (TrimSpace (ToLower U kl)) hooks acc =
      acc ++ hooks.filter (fun hook => decide (hookMatches U ck kl hook)) := by
  induction hooks generalizing acc with
  | nil => simp [matchLoop]
  | cons hook rest ih =>
    rw [matchLoop]
    simp only []
    by_cases h1 : TrimSpace (ToLower U hook.Key) = "" ∨
        TrimSpace (ToLower U hook.Key) ≠ TrimSpace (ToLower U kl)
    · have hn : ¬ hookMatches U ck kl hook := by
        rintro ⟨⟨ha, hb⟩, -⟩
        rcases h1 with h1 | h1
        · exact ha h1
        · exact h1 hb
      rw [if_pos h1, ih, List.filter_cons_of_neg (by simpa using hn)]
    · rw [if_neg h1]
      by_cases h2 : TrimSpace (ToLower U hook.Context) ≠ "" ∧
          EqualFold U (TrimSpace (ToLower U hook.Context)) ck = false
      · have hn : ¬ hookMatches U ck kl hook := by
          rintro ⟨-, hb, -⟩
          rcases hb with hb | hb
          · exact h2.1 hb
          · rw [h2.2] at hb
            exact Bool.false_ne_true hb
        rw [if_pos h2, ih, List.filter_cons_of_neg (by simpa using hn)]
      · rw [if_neg h2]
        by_cases h3 : TrimSpace hook.Before = "" ∧ TrimSpace hook.After = ""
        · have hn : ¬ hookMatches U ck kl hook := fun h => h.2.2 h3
          rw [if_pos h3, ih, List.filter_cons_of_neg (by simpa using hn)]
        · have hy : hookMatches U ck kl hook := by
            refine ⟨⟨fun h => h1 (Or.inl h), ?_⟩, ?_, h3⟩
            · by_contra h
              exact h1 (Or.inr h)
            · by_cases hc : TrimSpace (ToLower U hook.Context) = ""
              · exact Or.inl hc
              · right
                by_contra hf
                exact h2 ⟨hc, by simpa using hf⟩
          rw [if_neg h3, ih, List.filter_cons_of_pos (by simpa using hy)]
          simp

/-- `matchHooks` is the configured list filtered by the matching rule. -/
theorem matchHooks_eq_filter (U : UnicodeTables) (m : Manager) (ck kl : String) :
    m.matchHooks U ck kl =
      m.configured.filter (fun hook => decide (hookMatches U ck kl hook)) := by
  unfold Manager.matchHooks Manager.configured
  cases m.cfgProvider () with
  | none => rfl
  | some cfg =>
    simp only []
    by_cases h0 : cfg.ActionHooks.length = 0
    · rw [if_pos h0, List.length_eq_zero.1 h0]
      rfl
    · rw [if_neg h0]
      by_cases hk : TrimSpace (ToLower U kl) = ""
      · rw [if_pos hk]
        symm
        rw [List.filter_eq_nil_iff]
        intro hook _
        have hn : ¬ hookMatches U ck kl hook := by
          rintro ⟨⟨ha, hb⟩, -⟩
          exact ha (hb.trans hk)
        simpa using hn
      · rw [if_neg hk, matchLoop_eq_filter]
        simp

theorem dropWhile_all (p : Char → Bool) (l : List Char) (h : ∀ c ∈ l, p c = true) :
    l.dropWhile p = [] := by
  induction l with
  | nil => rfl
  | cons c l ih =>
    rw [List.dropWhile_cons, if_pos (h c (List.mem_cons_self c l))]
    exact ih fun d hd => h d (List.mem_cons_of_mem c hd)

theorem lowerRune_space (U : UnicodeTables) (c : Char) (h : c.toNat < 128)
    (hs : isSpace c = true) : lowerRune U c = c := by
  have hn : ¬ (c.toNat ≥ 65 ∧ c.toNat ≤ 90) := by
    simp only [isSpace, Bool.or_eq_true, beq_iff_eq, Bool.and_eq_true, decide_eq_true_eq] at hs
    omega
  simp only [lowerRune, h, if_true, Char.toLower, hn, if_false]

/-- A blank key is empty once lower-cased and trimmed. -/
theorem normalised_blank (U : UnicodeTables) (s : String) (h : isBlank s) :
    TrimSpace (ToLower U s) = "" := by
  have hmap : s.data.map (lowerRune U) = s.data := by
    have : ∀ l : List Char, (∀ c ∈ l, c.toNat < 128 ∧ isSpace c = true) →
        l.map (lowerRune U) = l := by
      intro l hl
      induction l with
      | nil => rfl
      | cons c l ih =>
        rw [List.map_cons, lowerRune_space U c (hl c (List.mem_cons_self c l)).1
          (hl c (List.mem_cons_self c l)).2, ih fun d hd => hl d (List.mem_cons_of_mem c hd)]
    exact this s.data h
  have hdrop : s.data.dropWhile isSpace = [] := dropWhile_all isSpace s.data fun c hc => (h c hc).2
  simp only [TrimSpace, ToLower, hmap, hdrop]
  rfl

/-! ## Properties of the coordinator and of the matcher -/

/-- C1: for every `n ≥ 1` and Execution `e`, after `startActionHookExecution(e)` and `n`
calls of `registerActionHookCompletion` (each returns a callback bound to `e`), with or
without a following `finalizeActionHookExecution` (which returns nil and changes nothing),
invoking `n - 1` of the callbacks with `success = true` returns nil each time and leaves
the trace as it was, and invoking the remaining callback with `success = true` then runs
`e.ExecuteAfter` exactly once and returns its result.  The callbacks of one Execution
differ only in their identity (each closure captures the same `exec`), so every choice and
order of `n - 1` of them is the same sequence of calls. -/
theorem C1_last_success_runs_after_once (e : Execution) (gui : Gui) (n : Nat) (hn : 1 ≤ n)
    (withFinalize : Bool) :
    let g0 := startActionHookExecution (some e) gui
    let g1 := runOps (List.replicate n Op.register) g0
    let g2 := if withFinalize then (finalizeActionHookExecution g1).1 else g1
    let g3 := runOps (List.replicate (n - 1) (Op.invoke ⟨e⟩ true)) g2
    (∀ k, k < n →
      (registerActionHookCompletion (runOps (List.replicate k Op.register) g0)).2
        = some ⟨e⟩) ∧
    finalizeActionHookExecution g1 = (g1, none) ∧
    (∀ k, k < n - 1 →
      (Completion.call ⟨e⟩ true (runOps (List.replicate k (Op.invoke ⟨e⟩ true)) g2)).2 = none ∧
      (Completion.call ⟨e⟩ true
        (runOps (List.replicate k (Op.invoke ⟨e⟩ true)) g2)).1.trace = gui.trace) ∧
    g3.trace = gui.trace ∧
    Completion.call ⟨e⟩ true g3 =
      (⟨⟨none, 0, true⟩, (ExecuteAfter (some e) gui.trace).1⟩,
        (ExecuteAfter (some e) gui.trace).2) ∧
    afterCalls (Completion.call ⟨e⟩ true g3).1.trace = afterCalls gui.trace + 1 ∧
    afterCallsOf e.addr (Completion.call ⟨e⟩ true g3).1.trace
      = afterCallsOf e.addr gui.trace + 1 := by
  intro g0 g1 g2 g3
  have h1 : g1 = ⟨⟨some e, n, false⟩, gui.trace⟩ := by
    simp only [g1, g0, start_some, registers_active, zero_add]
  have hfin : finalizeActionHookExecution g1 = (g1, none) := by
    apply finalize_pending
    rw [h1]
    show (0 : Int) < n
    omega
  have h2 : g2 = ⟨⟨some e, n, false⟩, gui.trace⟩ := by
    show (if withFinalize = true then (finalizeActionHookExecution g1).1 else g1) = _
    rw [hfin, ite_self, h1]
  have h3 : g3 = ⟨⟨some e, 1, false⟩, gui.trace⟩ := by
    simp only [g3, h2]
    rw [invokes_true_active e gui.trace (n - 1) n (by omega)]
    congr 2
    omega
  have hcall : Completion.call ⟨e⟩ true g3 =
      (⟨⟨none, 0, true⟩, (ExecuteAfter (some e) gui.trace).1⟩,
        (ExecuteAfter (some e) gui.trace).2) := by
    rw [h3, call_active_last_true]
  refine ⟨?_, hfin, ?_, ?_, hcall, ?_, ?_⟩
  · intro k _
    simp only [g0, start_some, registers_active, register_active]
  · intro k hk
    rw [h2, invokes_true_active e gui.trace k n (by omega),
      call_active_more e _ _ true (by omega)]
    exact ⟨rfl, rfl⟩
  · rw [h3]
  · rw [hcall]
    exact afterCalls_ExecuteAfter e gui.trace
  · rw [hcall]
    exact afterCallsOf_ExecuteAfter e gui.trace

/-- Witness of C1: two registrations followed by `finalize`; the first invocation runs
nothing and the second one runs `ExecuteAfter` once. -/
theorem C1_witness :
    1 ≤ 2 ∧
    (runOps (List.replicate (2 - 1) (Op.invoke ⟨sampleExecution⟩ true))
      (if true then
        (finalizeActionHookExecution
          (runOps (List.replicate 2 Op.register)
            (startActionHookExecution (some sampleExecution) sampleGui))).1
       else
        runOps (List.replicate 2 Op.register)
          (startActionHookExecution (some sampleExecution) sampleGui))).trace
      = sampleGui.trace :=
  ⟨by decide,
    (C1_last_success_runs_after_once sampleExecution sampleGui 2 (by decide) true).2.2.2.1⟩

/-- C2 fails as stated: the closure keeps no record of having been invoked.  After
`start(e)` and two registrations, the first invocation of the first callback with
`success = true` leaves one completion pending and runs nothing; the second invocation of
the same callback changes `(execution, pending, completed)` and runs the after-command of
`e`, although the second callback was never invoked. -/
theorem C2_counterexample_second_invocation_fires :
    (registerActionHookCompletion
      (startActionHookExecution (some sampleExecution) sampleGui)).2
      = some ⟨sampleExecution⟩ ∧
    (runOps [Op.register, Op.register, Op.invoke ⟨sampleExecution⟩ true]
      (startActionHookExecution (some sampleExecution) sampleGui)).actionHookState.pending = 1 ∧
    (runOps [Op.register, Op.register, Op.invoke ⟨sampleExecution⟩ true]
      (startActionHookExecution (some sampleExecution) sampleGui)).actionHookState.completed
      = false ∧
    (runOps [Op.register, Op.register, Op.invoke ⟨sampleExecution⟩ true]
      (startActionHookExecution (some sampleExecution) sampleGui)).trace = [] ∧
    (Completion.call ⟨sampleExecution⟩ true
      (runOps [Op.register, Op.register, Op.invoke ⟨sampleExecution⟩ true]
        (startActionHookExecution (some sampleExecution) sampleGui))).1.actionHookState.pending
      = 0 ∧
    (Completion.call ⟨sampleExecution⟩ true
      (runOps [Op.register, Op.register, Op.invoke ⟨sampleExecution⟩ true]
        (startActionHookExecution (some sampleExecution) sampleGui))).1.actionHookState.completed
      = true ∧
    (Completion.call ⟨sampleExecution⟩ true
      (runOps [Op.register, Op.register, Op.invoke ⟨sampleExecution⟩ true]
        (startActionHookExecution (some sampleExecution) sampleGui))).1.trace
      = [Event.after 1,
         Event.run
           { command := "echo after", shellFunctionsFile := "", dontLog := true,
             envVars := ["LAZYGIT_ACTION_CONTEXT=files", "LAZYGIT_ACTION_KEY=c",
                         "LAZYGIT_ACTION_PHASE=after"] }] :=
  ⟨rfl, by decide, by decide, by decide, by decide, by decide, by decide⟩

/-- C2, as amended: a completion callback is a no-op once the coordinator is completed.
For every state and every callback, if the state after an invocation is completed (the
invocation brought the pending count to zero, or the Execution was resolved before), every
further invocation of the callback, with any success value, returns nil, leaves
`(execution, pending, completed)` unchanged and runs nothing.  In particular, after
`start(e)` and one registration, the first invocation with `success = true` runs
`e.ExecuteAfter` once and a second invocation does nothing. -/
theorem C2_repeat_on_completed_is_noop (c : Completion) (e : Execution) (gui : Gui)
    (b1 b2 : Bool) :
    ((c.call b1 gui).1.actionHookState.completed = true →
      c.call b2 (c.call b1 gui).1 = ((c.call b1 gui).1, none)) ∧
    (let g1 := (registerActionHookCompletion (startActionHookExecution (some e) gui)).1
     let g2 := (Completion.call ⟨e⟩ true g1).1
     afterCalls g2.trace = afterCalls gui.trace + 1 ∧
     Completion.call ⟨e⟩ b2 g2 = (g2, none)) := by
  refine ⟨fun h => call_noop c b2 _ (Or.inr h), ?_⟩
  intro g1 g2
  have h2 : g2 = ⟨⟨none, 0, true⟩, (ExecuteAfter (some e) gui.trace).1⟩ := by
    simp only [g2, g1, start_some, register_active, zero_add, call_active_last_true]
  rw [h2]
  exact ⟨afterCalls_ExecuteAfter e gui.trace, call_noop _ _ _ (Or.inr rfl)⟩

/-- Witness of C2 (amended): one registration, the callback invoked twice. -/
theorem C2_witness :
    Completion.call ⟨sampleExecution⟩ true
      (Completion.call ⟨sampleExecution⟩ true
        (runOps [Op.register] (startActionHookExecution (some sampleExecution) sampleGui))).1
      = ((Completion.call ⟨sampleExecution⟩ true
          (runOps [Op.register]
            (startActionHookExecution (some sampleExecution) sampleGui))).1, none) :=
  (C2_repeat_on_completed_is_noop ⟨sampleExecution⟩ sampleExecution
    (runOps [Op.register] (startActionHookExecution (some sampleExecution) sampleGui))
    true true).1 (by decide)

/-- C3: over every sequence of registrations, callback invocations (any callback, any
success value, any order), `finalize` and `abort` that follows `start(e)`, `ExecuteAfter`
is called at most once (on `e` and in all); if it was called the state is completed; and
from a completed state (fired, discarded or aborted) no further such sequence runs
anything: the trace stays as it is and the state stays completed. -/
theorem C3_after_runs_at_most_once (e : Execution) (gui : Gui) (ops later : List Op) :
    let g1 := runOps ops (startActionHookExecution (some e) gui)
    afterCallsOf e.addr g1.trace ≤ afterCallsOf e.addr gui.trace + 1 ∧
    afterCalls g1.trace ≤ afterCalls gui.trace + 1 ∧
    (g1.trace ≠ gui.trace → g1.actionHookState.completed = true) ∧
    (g1.actionHookState.completed = true →
      (runOps later g1).trace = g1.trace ∧
      (runOps later g1).actionHookState.completed = true) := by
  intro g1
  have hcases := runOps_cases ops (startActionHookExecution (some e) gui)
  refine ⟨?_, ?_, ?_, fun h => runOps_completed later g1 h⟩
  · rcases hcases with h | ⟨-, x, t, hx, ht⟩
    · show afterCallsOf e.addr (runOps ops _).trace ≤ _
      rw [h]
      exact Nat.le_succ _
    · show afterCallsOf e.addr (runOps ops _).trace ≤ _
      rw [hx, ht]
      exact afterCallsOf_ExecuteAfter_le e.addr x gui.trace
  · rcases hcases with h | ⟨-, x, t, hx, ht⟩
    · show afterCalls (runOps ops _).trace ≤ _
      rw [h]
      exact Nat.le_succ _
    · show afterCalls (runOps ops _).trace ≤ _
      rw [hx, ht, afterCalls_ExecuteAfter]
      exact le_refl _
  · intro hne
    rcases hcases with h | ⟨hc, -⟩
    · exact absurd h hne
    · exact hc

/-- Witness of C3: after one registration and its successful completion the Execution is
resolved, and a following `finalize`, invocation, registration and `abort` run nothing. -/
theorem C3_witness :
    (runOps [Op.finalize, Op.invoke ⟨sampleExecution⟩ true, Op.register, Op.abort]
      (runOps [Op.register, Op.invoke ⟨sampleExecution⟩ true]
        (startActionHookExecution (some sampleExecution) sampleGui))).trace
      = (runOps [Op.register, Op.invoke ⟨sampleExecution⟩ true]
        (startActionHookExecution (some sampleExecution) sampleGui)).trace :=
  ((C3_after_runs_at_most_once sampleExecution sampleGui
    [Op.register, Op.invoke ⟨sampleExecution⟩ true]
    [Op.finalize, Op.invoke ⟨sampleExecution⟩ true, Op.register, Op.abort]).2.2.2
      (by decide)).1

/-- C4: from every state `abortActionHookExecution` yields `execution = nil`,
`pending = 0`, `completed = true` and leaves the trace alone (it runs nothing); in the
state it yields, every callback with either success value and `finalize` return nil,
`registerActionHookCompletion` returns the nil callback, and each of them, as well as
every sequence of them, leaves state and trace unchanged. -/
theorem C4_abort_discards (gui : Gui) (c : Completion) (b : Bool) (ops : List Op) :
    abortActionHookExecution gui = ⟨⟨none, 0, true⟩, gui.trace⟩ ∧
    c.call b (abortActionHookExecution gui) = (abortActionHookExecution gui, none) ∧
    finalizeActionHookExecution (abortActionHookExecution gui)
      = (abortActionHookExecution gui, none) ∧
    registerActionHookCompletion (abortActionHookExecution gui)
      = (abortActionHookExecution gui, none) ∧
    runOps ops (abortActionHookExecution gui) = abortActionHookExecution gui := by
  refine ⟨rfl, call_noop _ _ _ (Or.inr rfl), rfl, rfl, ?_⟩
  induction ops with
  | nil => rfl
  | cons op ops ih =>
    have hop : op.apply (abortActionHookExecution gui) = abortActionHookExecution gui := by
      cases op with
      | register => rfl
      | invoke k s =>
        show (k.call s (abortActionHookExecution gui)).1 = _
        rw [call_noop k s (abortActionHookExecution gui) (Or.inr rfl)]
      | finalize => rfl
      | abort => rfl
    simp only [runOps, hop, ih]

/-- C6: whenever `pending > 0`, `finalizeActionHookExecution` returns nil and leaves the
state and the trace unchanged.  So after `start(e)`, one registration and `finalize()`
nothing has run; the first invocation of the callback with `success = true` then runs
`e.ExecuteAfter` exactly once, and a second invocation returns nil and changes nothing. -/
theorem C6_finalize_waits_for_pending (gui : Gui) (e : Execution) (g0 : Gui) (b : Bool) :
    (0 < gui.actionHookState.pending → finalizeActionHookExecution gui = (gui, none)) ∧
    (let g1 := (registerActionHookCompletion (startActionHookExecution (some e) g0)).1
     let g2 := (finalizeActionHookExecution g1).1
     let r3 := Completion.call ⟨e⟩ true g2
     (registerActionHookCompletion (startActionHookExecution (some e) g0)).2 = some ⟨e⟩ ∧
     finalizeActionHookExecution g1 = (g1, none) ∧
     g2.trace = g0.trace ∧
     r3 = (⟨⟨none, 0, true⟩, (ExecuteAfter (some e) g0.trace).1⟩,
            (ExecuteAfter (some e) g0.trace).2) ∧
     afterCalls r3.1.trace = afterCalls g0.trace + 1 ∧
     afterCallsOf e.addr r3.1.trace = afterCallsOf e.addr g0.trace + 1 ∧
     Completion.call ⟨e⟩ b r3.1 = (r3.1, none)) := by
  refine ⟨finalize_pending gui, ?_⟩
  intro g1 g2 r3
  have h1 : g1 = ⟨⟨some e, 1, false⟩, g0.trace⟩ := by
    simp only [g1, start_some, register_active, zero_add]
  have hfin : finalizeActionHookExecution g1 = (g1, none) := by
    rw [h1]
    exact finalize_pending _ (show (0 : Int) < 1 by decide)
  have h2 : g2 = ⟨⟨some e, 1, false⟩, g0.trace⟩ := by
    show (finalizeActionHookExecution g1).1 = _
    rw [hfin, h1]
  have h3 : r3 = (⟨⟨none, 0, true⟩, (ExecuteAfter (some e) g0.trace).1⟩,
      (ExecuteAfter (some e) g0.trace).2) := by
    simp only [r3, h2, call_active_last_true]
  refine ⟨?_, hfin, by rw [h2], h3, ?_, ?_, ?_⟩
  · simp only [start_some, register_active]
  · rw [h3]; exact afterCalls_ExecuteAfter e g0.trace
  · rw [h3]; exact afterCallsOf_ExecuteAfter e g0.trace
  · rw [h3]; exact call_noop _ _ _ (Or.inr rfl)

/-- Witness of C6: `finalize` on the state after `start` and one registration. -/
theorem C6_witness :
    finalizeActionHookExecution
      (runOps [Op.register] (startActionHookExecution (some sampleExecution) sampleGui))
      = (runOps [Op.register] (startActionHookExecution (some sampleExecution) sampleGui),
          none) :=
  (C6_finalize_waits_for_pending
    (runOps [Op.register] (startActionHookExecution (some sampleExecution) sampleGui))
    sampleExecution sampleGui true).1 (by decide)

/-- C7: after `start(e)` and `n = init.length + 1` registrations, let the callbacks be
invoked once each, reporting the success values `init` and then `last`.  Before the last
invocation nothing has run and the Execution is still active, whatever `init` reports; an
invocation reporting failure runs nothing, and it resolves the Execution (by discarding)
exactly when it is the one that brings `pending` to zero; the last invocation resolves the
Execution, and `e.ExecuteAfter` is called (once) exactly when `last = true`.  The callbacks
of one Execution capture the same `exec`, so the order in which the distinct callbacks are
taken does not matter. -/
theorem C7_last_completion_decides (e : Execution) (gui : Gui) (init : List Bool)
    (last : Bool) :
    let g1 := runOps (List.replicate (init.length + 1) Op.register)
      (startActionHookExecution (some e) gui)
    let g2 := runOps (init.map (Op.invoke ⟨e⟩)) g1
    let r := Completion.call ⟨e⟩ last g2
    (∀ k, k ≤ init.length →
      runOps ((init.take k).map (Op.invoke ⟨e⟩)) g1
        = ⟨⟨some e, (init.length + 1 : Nat) - (k : Int), false⟩, gui.trace⟩) ∧
    (∀ k, k ≤ init.length →
      (Completion.call ⟨e⟩ false
        (runOps ((init.take k).map (Op.invoke ⟨e⟩)) g1)).2 = none ∧
      (Completion.call ⟨e⟩ false
        (runOps ((init.take k).map (Op.invoke ⟨e⟩)) g1)).1.trace = gui.trace ∧
      ((Completion.call ⟨e⟩ false
        (runOps ((init.take k).map (Op.invoke ⟨e⟩)) g1)).1.actionHookState.completed = true
        ↔ k = init.length)) ∧
    r.1.actionHookState.completed = true ∧
    r.1.actionHookState.pending = 0 ∧
    (last = true →
      r = (⟨⟨none, 0, true⟩, (ExecuteAfter (some e) gui.trace).1⟩,
            (ExecuteAfter (some e) gui.trace).2)) ∧
    (last = false → r = (⟨⟨none, 0, true⟩, gui.trace⟩, none)) ∧
    afterCalls r.1.trace = afterCalls gui.trace + (if last = true then 1 else 0) ∧
    afterCallsOf e.addr r.1.trace
      = afterCallsOf e.addr gui.trace + (if last = true then 1 else 0) := by
  intro g1 g2 r
  have h1 : g1 = ⟨⟨some e, (init.length + 1 : Nat), false⟩, gui.trace⟩ := by
    simp only [g1, start_some, registers_active, zero_add]
  have hk : ∀ k, k ≤ init.length →
      runOps ((init.take k).map (Op.invoke ⟨e⟩)) g1
        = ⟨⟨some e, (init.length + 1 : Nat) - (k : Int), false⟩, gui.trace⟩ := by
    intro k hk
    have hl : (init.take k).length = k := by simp [hk]
    rw [h1, invokes_active e gui.trace (init.take k) _ (by rw [hl]; push_cast; omega), hl]
  have h2 : g2 = ⟨⟨some e, 1, false⟩, gui.trace⟩ := by
    have := hk init.length (le_refl _)
    rw [List.take_length] at this
    simp only [g2, this]
    congr 2
    push_cast
    omega
  have hr : r = if last = true then
      (⟨⟨none, 0, true⟩, (ExecuteAfter (some e) gui.trace).1⟩,
        (ExecuteAfter (some e) gui.trace).2)
      else (⟨⟨none, 0, true⟩, gui.trace⟩, none) := by
    cases last
    · simp only [r, h2, call_active_last_false]; rfl
    · simp only [r, h2, call_active_last_true]; rfl
  refine ⟨hk, ?_, ?_, ?_, ?_, ?_, ?_, ?_⟩
  · intro k hkl
    rw [hk k hkl]
    by_cases hlast : k = init.length
    · have hp : ((init.length + 1 : Nat) : Int) - (k : Int) = 1 := by
        rw [hlast]; push_cast; omega
      rw [hp, call_active_last_false]
      exact ⟨rfl, rfl, by simp [hlast]⟩
    · have hp : ((init.length + 1 : Nat) : Int) - (k : Int) ≠ 1 := by
        push_cast; omega
      rw [call_active_more e _ _ false hp]
      exact ⟨rfl, rfl, by simp [hlast]⟩
  · rw [hr]; cases last <;> rfl
  · rw [hr]; cases last <;> rfl
  · intro hl; rw [hr, if_pos hl]
  · intro hl; rw [hr, if_neg (by simp [hl])]
  · rw [hr]
    cases last
    · rfl
    · exact afterCalls_ExecuteAfter e gui.trace
  · rw [hr]
    cases last
    · rfl
    · exact afterCallsOf_ExecuteAfter e gui.trace

/-- Witness of C7: three completions reporting failure, success, success: the failure
does not keep the last completion from running `ExecuteAfter`. -/
theorem C7_witness :
    Completion.call ⟨sampleExecution⟩ true
      (runOps ([false, true].map (Op.invoke ⟨sampleExecution⟩))
        (runOps (List.replicate ([false, true].length + 1) Op.register)
          (startActionHookExecution (some sampleExecution) sampleGui)))
      = (⟨⟨none, 0, true⟩, (ExecuteAfter (some sampleExecution) sampleGui.trace).1⟩,
          (ExecuteAfter (some sampleExecution) sampleGui.trace).2) :=
  (C7_last_completion_decides sampleExecution sampleGui [false, true] true).2.2.2.2.1 rfl

/-- C8: let the callback `c` have been returned by `registerActionHookCompletion` (so it
is bound to the Execution active then), and let `startActionHookExecution(e2)` be called
later with `e2` nil or a different Execution.  Then, after any operations on `e2` short of
a new `start`, invoking `c` with any success value returns nil and leaves state and trace
unchanged: nothing is run for the old Execution and `e2` is not touched. -/
theorem C8_stale_callback_is_noop (gui : Gui) (c : Completion) (e2 : Option Execution)
    (between later : List Op) (b : Bool)
    (hreg : (registerActionHookCompletion gui).2 = some c)
    (hdiff : samePtr e2 (some c.exec) = false) :
    gui.actionHookState.execution = some c.exec ∧
    (let g2 := runOps later
      (startActionHookExecution e2 (runOps between (registerActionHookCompletion gui).1))
     c.call b g2 = (g2, none)) := by
  constructor
  · obtain ⟨⟨ex, p, cm⟩, t⟩ := gui
    cases ex with
    | none => simp [registerActionHookCompletion] at hreg
    | some e =>
      cases cm
      · simp only [registerActionHookCompletion, Bool.false_eq_true, if_false,
          Option.some.injEq] at hreg
        rw [← hreg]
      · simp [registerActionHookCompletion] at hreg
  · intro g2
    exact call_noop c b g2 (Or.inl (runOps_foreign later _ c.exec hdiff))

/-- Witness of C8: a callback of the sample Execution, invoked after `start` of the other
Execution. -/
theorem C8_witness :
    Completion.call ⟨sampleExecution⟩ true
      (runOps [Op.register]
        (startActionHookExecution (some abortingExecution)
          (runOps []
            (registerActionHookCompletion
              (startActionHookExecution (some sampleExecution) sampleGui)).1)))
      = (runOps [Op.register]
          (startActionHookExecution (some abortingExecution)
            (runOps []
              (registerActionHookCompletion
                (startActionHookExecution (some sampleExecution) sampleGui)).1)), none) :=
  (C8_stale_callback_is_noop (startActionHookExecution (some sampleExecution) sampleGui)
    ⟨sampleExecution⟩ (some abortingExecution) [] [Op.register] true rfl rfl).2

/-- C9: `matchHooks(context, key)` is the configured `ActionHooks` list filtered by the
matching rule (normalised key non-empty and equal to the normalised query key; normalised
context empty or equal to the query context ignoring case; not both commands empty after
trimming), so it keeps the configuration order and takes every entry at most once.  It
returns nothing when there is no configuration, when the list is empty, or when the query
key is blank (empty once lower-cased and trimmed), and it never returns a definition whose
two commands are both empty. -/
theorem C9_matchHooks_is_filter (U : UnicodeTables) (m : Manager) (ck kl : String) :
    m.matchHooks U ck kl =
      m.configured.filter (fun hook => decide (hookMatches U ck kl hook)) ∧
    (m.matchHooks U ck kl).Sublist m.configured ∧
    (m.cfgProvider () = none → m.matchHooks U ck kl = []) ∧
    (m.configured = [] → m.matchHooks U ck kl = []) ∧
    (isBlank kl → m.matchHooks U ck kl = []) ∧
    (TrimSpace (ToLower U kl) = "" → m.matchHooks U ck kl = []) ∧
    (∀ hook ∈ m.matchHooks U ck kl,
      ¬ (TrimSpace hook.Before = "" ∧ TrimSpace hook.After = "")) ∧
    (∀ hook ∈ m.matchHooks U ck kl, ¬ (hook.Before = "" ∧ hook.After = "")) := by
  have hf := matchHooks_eq_filter U m ck kl
  have htrim : ∀ hook ∈ m.matchHooks U ck kl,
      ¬ (TrimSpace hook.Before = "" ∧ TrimSpace hook.After = "") := by
    intro hook hmem
    rw [hf, List.mem_filter] at hmem
    exact (of_decide_eq_true hmem.2).2.2
  have hempty : TrimSpace (ToLower U kl) = "" → m.matchHooks U ck kl = [] := by
    intro hk
    rw [hf, List.filter_eq_nil_iff]
    intro hook _
    have hn : ¬ hookMatches U ck kl hook := by
      rintro ⟨⟨ha, hb⟩, -⟩
      exact ha (hb.trans hk)
    simpa using hn
  refine ⟨hf, ?_, ?_, ?_, ?_, hempty, htrim, ?_⟩
  · rw [hf]
    exact List.filter_sublist _
  · intro hnone
    simp [Manager.matchHooks, hnone]
  · intro hnil
    rw [hf, hnil]
    rfl
  · intro hblank
    exact hempty (normalised_blank U kl hblank)
  · intro hook hmem hboth
    apply htrim hook hmem
    rw [hboth.1, hboth.2]
    exact ⟨rfl, rfl⟩

/-- Witness of C9: a query key of two spaces matches nothing. -/
theorem C9_witness :
    paddedManager.matchHooks UnicodeTables.trivial "files" "  " = [] :=
  (C9_matchHooks_is_filter UnicodeTables.trivial paddedManager "files" "  ").2.2.2.2.1
    (by
      show ∀ c ∈ [' ', ' '], c.toNat < 128 ∧ isSpace c = true
      decide)

/-- C10 fails as stated, in both halves, because the definition is normalised first.  A
definition whose context is `" files "` is non-empty and not equal, ignoring case, to the
query context `"files"`, and yet it is returned; a definition with an empty context, a
matching key and the non-empty command `" "` is not returned. -/
theorem C10_counterexample_padded_context :
    (" files " : String) ≠ "" ∧
    EqualFold UnicodeTables.trivial " files " "files" = false ∧
    ({ Context := " files ", Key := "c", Before := "echo before", After := "",
       LogOutput := false, AbortOnSuccess := false, AbortMessage := "" } : ActionHook)
      ∈ paddedManager.matchHooks UnicodeTables.trivial "files" "c" ∧
    ({ Context := "", Key := "c", Before := " ", After := "",
       LogOutput := false, AbortOnSuccess := false, AbortMessage := "" } : ActionHook)
      ∈ paddedManager.configured ∧
    (" " : String) ≠ "" ∧
    ({ Context := "", Key := "c", Before := " ", After := "",
       LogOutput := false, AbortOnSuccess := false, AbortMessage := "" } : ActionHook)
      ∉ paddedManager.matchHooks UnicodeTables.trivial "files" "c" := by
  refine ⟨by decide, by decide, by decide, by decide, by decide, by decide⟩

/-- C10, as amended: for every configuration and query, a definition whose context is
non-empty after lower-casing and trimming and, in that form, is not equal to the query
context ignoring case is not returned by `matchHooks`; and every configured definition
whose context is empty after trimming (an empty context in particular), whose normalised
key is non-empty and equals the normalised query key, and which has a command that is
non-empty after trimming, is returned, whatever the query context. -/
theorem C10_context_rule (U : UnicodeTables) (m : Manager) (ck kl : String)
    (hook : ActionHook) :
    (TrimSpace (ToLower U hook.Context) ≠ "" →
      EqualFold U (TrimSpace (ToLower U hook.Context)) ck = false →
      hook ∉ m.matchHooks U ck kl) ∧
    (hook ∈ m.configured →
      TrimSpace (ToLower U hook.Context) = "" →
      TrimSpace (ToLower U hook.Key) ≠ "" →
      TrimSpace (ToLower U hook.Key) = TrimSpace (ToLower U kl) →
      (TrimSpace hook.Before ≠ "" ∨ TrimSpace hook.After ≠ "") →
      hook ∈ m.matchHooks U ck kl) ∧
    (hook.Context = "" → TrimSpace (ToLower U hook.Context) = "") := by
  refine ⟨?_, ?_, ?_⟩
  · intro hne hfold hmem
    rw [matchHooks_eq_filter, List.mem_filter] at hmem
    rcases (of_decide_eq_true hmem.2).2.1 with h | h
    · exact hne h
    · rw [hfold] at h
      exact Bool.false_ne_true h
  · intro hcfg hctx hkey hkeq hcmd
    rw [matchHooks_eq_filter, List.mem_filter]
    refine ⟨hcfg, decide_eq_true ⟨⟨hkey, hkeq⟩, Or.inl hctx, ?_⟩⟩
    rintro ⟨hb, ha⟩
    rcases hcmd with h | h
    · exact h hb
    · exact h ha
  · intro h
    rw [h]
    rfl

/-- Witness of C10 (amended): the definition with context `files` is not returned for
the query context `branches`. -/
theorem C10_witness :
    ({ Context := "files", Key := "c", Before := "echo before", After := "echo after",
       LogOutput := false, AbortOnSuccess := false, AbortMessage := "" } : ActionHook)
      ∉ sampleManager.matchHooks UnicodeTables.trivial "branches" "c" :=
  (C10_context_rule UnicodeTables.trivial sampleManager "branches" "c"
    { Context := "files", Key := "c", Before := "echo before", After := "echo after",
      LogOutput := false, AbortOnSuccess := false, AbortMessage := "" }).1
    (by decide) (by decide)

/-! ## One step of the loop of `runCommands` -/

theorem runLoop_nil (R : Runner) (sf phase ck kl : String) (t : List Event) :
    runLoop R sf phase ck kl [] t = (t, none) := by
  rw [runLoop]

theorem runLoop_cons_blank (R : Runner) (sf phase ck kl : String) (hook : ActionHook)
    (rest : List ActionHook) (t : List Event) (h : phaseCommand phase hook = "") :
    runLoop R sf phase ck kl (hook :: rest) t = runLoop R sf phase ck kl rest t := by
  rw [runLoop]
  simp only [phaseCommand] at h
  simp only [h, if_true]

theorem runLoop_cons_fail (R : Runner) (sf phase ck kl : String) (hook : ActionHook)
    (rest : List ActionHook) (t : List Event) (err : String)
    (h : phaseCommand phase hook ≠ "")
    (hr : (R t (buildCmdObj sf phase ck kl hook)).err = some err) :
    runLoop R sf phase ck kl (hook :: rest) t =
      (t ++ [Event.run (buildCmdObj sf phase ck kl hook)],
        some (failureError phase (R t (buildCmdObj sf phase ck kl hook)).output err)) := by
  rw [runLoop]
  simp only [phaseCommand, buildCmdObj] at h hr
  simp only [h, if_false, hr, failureError, phaseCommand, buildCmdObj]
  split_ifs <;> rfl

theorem runLoop_cons_abort (R : Runner) (sf phase ck kl : String) (hook : ActionHook)
    (rest : List ActionHook) (t : List Event)
    (h : phaseCommand phase hook ≠ "")
    (hr : (R t (buildCmdObj sf phase ck kl hook)).err = none)
    (ha : hook.AbortOnSuccess = true) :
    runLoop R sf phase ck kl (hook :: rest) t =
      (t ++ [Event.run (buildCmdObj sf phase ck kl hook)], some (abortError hook)) := by
  rw [runLoop]
  simp only [phaseCommand, buildCmdObj] at h hr
  simp only [h, if_false, hr, ha, if_true, abortError, phaseCommand, buildCmdObj]

theorem runLoop_cons_next (R : Runner) (sf phase ck kl : String) (hook : ActionHook)
    (rest : List ActionHook) (t : List Event)
    (h : phaseCommand phase hook ≠ "")
    (hr : (R t (buildCmdObj sf phase ck kl hook)).err = none)
    (ha : hook.AbortOnSuccess = false) :
    runLoop R sf phase ck kl (hook :: rest) t =
      runLoop R sf phase ck kl rest (t ++ [Event.run (buildCmdObj sf phase ck kl hook)]) := by
  rw [runLoop]
  simp only [phaseCommand, buildCmdObj] at h hr
  simp only [h, if_false, hr, ha, Bool.false_eq_true, phaseCommand, buildCmdObj]

theorem plannedCommands_nil (sf phase ck kl : String) :
    plannedCommands sf phase ck kl [] = [] := rfl

theorem plannedCommands_cons_blank (sf phase ck kl : String) (hook : ActionHook)
    (rest : List ActionHook) (h : phaseCommand phase hook = "") :
    plannedCommands sf phase ck kl (hook :: rest) = plannedCommands sf phase ck kl rest := by
  simp only [phaseCommand] at h
  simp only [plannedCommands, List.filterMap_cons, h, if_true]

theorem plannedCommands_cons (sf phase ck kl : String) (hook : ActionHook)
    (rest : List ActionHook) (h : phaseCommand phase hook ≠ "") :
    plannedCommands sf phase ck kl (hook :: rest) =
      buildCmdObj sf phase ck kl hook :: plannedCommands sf phase ck kl rest := by
  simp only [phaseCommand] at h
  simp only [plannedCommands, List.filterMap_cons, h, if_false, buildCmdObj, phaseCommand]

/-- A prefix of the definitions that is passed without failure and without abort does
not change what the loop does on the rest. -/
theorem runLoop_append (R : Runner) (sf phase ck kl : String) (pre post : List ActionHook)
    (t t1 : List Event) (h : runLoop R sf phase ck kl pre t = (t1, none)) :
    runLoop R sf phase ck kl (pre ++ post) t = runLoop R sf phase ck kl post t1 := by
  induction pre generalizing t with
  | nil =>
    rw [runLoop_nil] at h
    cases h
    rfl
  | cons hook pre ih =>
    rw [List.cons_append]
    by_cases hb : phaseCommand phase hook = ""
    · rw [runLoop_cons_blank _ _ _ _ _ _ _ _ hb] at h ⊢
      exact ih t h
    · cases hr : (R t (buildCmdObj sf phase ck kl hook)).err with
      | some err =>
        rw [runLoop_cons_fail _ _ _ _ _ _ _ _ err hb hr] at h
        cases h
      | none =>
        cases ha : hook.AbortOnSuccess with
        | true =>
          rw [runLoop_cons_abort _ _ _ _ _ _ _ _ hb hr ha] at h
          cases h
        | false =>
          rw [runLoop_cons_next _ _ _ _ _ _ _ _ hb hr ha] at h ⊢
          exact ih _ h

/-- When the loop returns an error, it comes from the first definition whose command
fails, or succeeds with `abortOnSuccess` set; the definitions before it were passed, and
its command is the last one run. -/
theorem runLoop_error (R : Runner) (sf phase ck kl : String) (hooks : List ActionHook)
    (t : List Event) (e : GoError) (h : (runLoop R sf phase ck kl hooks t).2 = some e) :
    ∃ pre hook post t1,
      hooks = pre ++ hook :: post ∧
      runLoop R sf phase ck kl pre t = (t1, none) ∧
      phaseCommand phase hook ≠ "" ∧
      (runLoop R sf phase ck kl hooks t).1
        = t1 ++ [Event.run (buildCmdObj sf phase ck kl hook)] ∧
      ((∃ err, (R t1 (buildCmdObj sf phase ck kl hook)).err = some err ∧
          e = failureError phase (R t1 (buildCmdObj sf phase ck kl hook)).output err) ∨
        ((R t1 (buildCmdObj sf phase ck kl hook)).err = none ∧
          hook.AbortOnSuccess = true ∧ e = abortError hook)) := by
  induction hooks generalizing t with
  | nil =>
    rw [runLoop_nil] at h
    cases h
  | cons hook rest ih =>
    by_cases hb : phaseCommand phase hook = ""
    · rw [runLoop_cons_blank _ _ _ _ _ _ _ _ hb] at h ⊢
      obtain ⟨pre, hk, post, t1, h1, h2, h3, h4, h5⟩ := ih t h
      refine ⟨hook :: pre, hk, post, t1, by rw [h1]; rfl, ?_, h3, h4, h5⟩
      rw [runLoop_cons_blank _ _ _ _ _ _ _ _ hb]
      exact h2
    · cases hr : (R t (buildCmdObj sf phase ck kl hook)).err with
      | some err =>
        rw [runLoop_cons_fail _ _ _ _ _ _ _ _ err hb hr] at h ⊢
        refine ⟨[], hook, rest, t, rfl, runLoop_nil _ _ _ _ _ _, hb, rfl, Or.inl ⟨err, hr, ?_⟩⟩
        cases h
        rfl
      | none =>
        cases ha : hook.AbortOnSuccess with
        | true =>
          rw [runLoop_cons_abort _ _ _ _ _ _ _ _ hb hr ha] at h ⊢
          refine ⟨[], hook, rest, t, rfl, runLoop_nil _ _ _ _ _ _, hb, rfl, Or.inr ⟨hr, ha, ?_⟩⟩
          cases h
          rfl
        | false =>
          rw [runLoop_cons_next _ _ _ _ _ _ _ _ hb hr ha] at h ⊢
          obtain ⟨pre, hk, post, t1, h1, h2, h3, h4, h5⟩ := ih _ h
          refine ⟨hook :: pre, hk, post, t1, by rw [h1]; rfl, ?_, h3, h4, h5⟩
          rw [runLoop_cons_next _ _ _ _ _ _ _ _ hb hr ha]
          exact h2

/-- When no definition has `abortOnSuccess` set and every command that is run succeeds,
the loop runs all planned commands and returns nil. -/
theorem runLoop_all (R : Runner) (sf phase ck kl : String) (hooks : List ActionHook)
    (t : List Event)
    (ha : ∀ hook ∈ hooks, hook.AbortOnSuccess = false)
    (hs : ∀ cs c rest, plannedCommands sf phase ck kl hooks = cs ++ c :: rest →
      (R (t ++ cs.map Event.run) c).err = none) :
    runLoop R sf phase ck kl hooks t =
      (t ++ (plannedCommands sf phase ck kl hooks).map Event.run, none) := by
  induction hooks generalizing t with
  | nil => simp [runLoop_nil, plannedCommands_nil]
  | cons hook rest ih =>
    have ha2 : ∀ h ∈ rest, h.AbortOnSuccess = false :=
      fun h hm => ha h (List.mem_cons_of_mem _ hm)
    by_cases hb : phaseCommand phase hook = ""
    · rw [runLoop_cons_blank _ _ _ _ _ _ _ _ hb, plannedCommands_cons_blank _ _ _ _ _ _ hb]
      rw [plannedCommands_cons_blank _ _ _ _ _ _ hb] at hs
      exact ih t ha2 hs
    · rw [plannedCommands_cons _ _ _ _ _ _ hb] at hs ⊢
      have hr : (R t (buildCmdObj sf phase ck kl hook)).err = none := by
        have := hs [] _ _ rfl
        simpa using this
      rw [runLoop_cons_next _ _ _ _ _ _ _ _ hb hr (ha hook (List.mem_cons_self _ _))]
      rw [ih _ ha2]
      · simp
      · intro cs c rest2 hpl
        have := hs (buildCmdObj sf phase ck kl hook :: cs) c rest2 (by rw [hpl]; rfl)
        simpa using this

theorem beforeCommands_eq (m : Manager) (ck kl : String) (hooks : List ActionHook) :
    beforeCommands m ck kl hooks =
      plannedCommands m.shellFunctionsFile phaseBefore ck kl hooks := by
  simp [beforeCommands, plannedCommands]

theorem runCommands_eq (m : Manager) (hooks : List ActionHook) (phase ck kl : String)
    (t : List Event) :
    m.runCommands hooks phase ck kl t =
      runLoop m.osCommand m.shellFunctionsFile phase ck kl hooks t := rfl

theorem phaseCommand_before (hook : ActionHook) :
    phaseCommand phaseBefore hook = TrimSpace hook.Before := by
  simp [phaseCommand]

theorem phaseCommand_after (hook : ActionHook) :
    phaseCommand phaseAfter hook = TrimSpace hook.After := by
  have h : phaseAfter ≠ phaseBefore := by decide
  simp [phaseCommand, h]

theorem ExecuteBefore_of_error (U : UnicodeTables) (m : Manager) (addr : Nat) (ck kl : String)
    (t t1 : List Event) (hooks : List ActionHook) (e : GoError)
    (hm : m.matchHooks U ck kl = hooks) (hne : hooks ≠ [])
    (hr : m.runCommands hooks phaseBefore ck kl t = (t1, some e)) :
    m.ExecuteBefore U addr ck kl t = (t1, none, some e) := by
  have hl : ¬ hooks.length = 0 := fun h => hne (List.length_eq_zero.1 h)
  simp only [Manager.ExecuteBefore, hm, hl, if_false, hr]

theorem ExecuteBefore_of_nil (U : UnicodeTables) (m : Manager) (addr : Nat) (ck kl : String)
    (t t1 : List Event) (hooks : List ActionHook)
    (hm : m.matchHooks U ck kl = hooks) (hne : hooks ≠ [])
    (hr : m.runCommands hooks phaseBefore ck kl t = (t1, none)) :
    m.ExecuteBefore U addr ck kl t =
      (t1,
        some { addr := addr, manager := m, hooks := hooks, contextKey := ck, keyLabel := kl },
        none) := by
  have hl : ¬ hooks.length = 0 := fun h => hne (List.length_eq_zero.1 h)
  simp only [Manager.ExecuteBefore, hm, hl, if_false, hr]

/-! ## Properties of `ExecuteBefore`, `ExecuteAfter` and `runCommands` -/

/-- C11: for every configuration and query for which `matchHooks` returns no definition,
`ExecuteBefore(context, key)` returns a nil Execution and a nil error and leaves the trace
as it was: the command runner is not invoked. -/
theorem C11_no_match_no_execution (U : UnicodeTables) (m : Manager) (addr : Nat)
    (ck kl : String) (t : List Event) (h : m.matchHooks U ck kl = []) :
    m.ExecuteBefore U addr ck kl t = (t, none, none) := by
  simp [Manager.ExecuteBefore, h]

/-- Witness of C11: the sample configuration (context `files`) queried with the context
`branches`. -/
theorem C11_witness :
    sampleManager.ExecuteBefore UnicodeTables.trivial 1 "branches" "c" [] = ([], none, none) :=
  C11_no_match_no_execution UnicodeTables.trivial sampleManager 1 "branches" "c" []
    (by decide)

/-- C12: if `matchHooks(context, key)` returns `N ≥ 1` definitions, none of them has
`abortOnSuccess` set, and every before-command that is run succeeds, then
`ExecuteBefore(context, key)` runs exactly the non-empty trimmed before-commands of those
definitions, once each and in configuration order, and returns a nil error and an
Execution whose hooks are those `N` definitions in that order and whose context and key
are the ones of the query. -/
theorem C12_before_commands_all_run (U : UnicodeTables) (m : Manager) (addr : Nat)
    (ck kl : String) (t : List Event)
    (hN : 1 ≤ (m.matchHooks U ck kl).length)
    (ha : ∀ hook ∈ m.matchHooks U ck kl, hook.AbortOnSuccess = false)
    (hs : ∀ cs c rest, beforeCommands m ck kl (m.matchHooks U ck kl) = cs ++ c :: rest →
      (m.osCommand (t ++ cs.map Event.run) c).err = none) :
    m.ExecuteBefore U addr ck kl t =
      (t ++ (beforeCommands m ck kl (m.matchHooks U ck kl)).map Event.run,
        some { addr := addr, manager := m, hooks := m.matchHooks U ck kl,
               contextKey := ck, keyLabel := kl },
        none) := by
  have hne : m.matchHooks U ck kl ≠ [] := by
    intro h
    rw [h] at hN
    exact absurd hN (by decide)
  rw [beforeCommands_eq] at hs ⊢
  exact ExecuteBefore_of_nil U m addr ck kl t _ _ rfl hne
    (runLoop_all m.osCommand m.shellFunctionsFile phaseBefore ck kl _ t ha hs)

/-- Witness of C12: the sample configuration queried with `files` and `c`. -/
theorem C12_witness :
    sampleManager.ExecuteBefore UnicodeTables.trivial 1 "files" "c" [] =
      ([] ++ (beforeCommands sampleManager "files" "c"
          (sampleManager.matchHooks UnicodeTables.trivial "files" "c")).map Event.run,
        some { addr := 1, manager := sampleManager,
               hooks := sampleManager.matchHooks UnicodeTables.trivial "files" "c",
               contextKey := "files", keyLabel := "c" },
        none) :=
  C12_before_commands_all_run UnicodeTables.trivial sampleManager 1 "files" "c" []
    (by decide) (by decide) (fun _ _ _ _ => rfl)

/-- C13: let the definitions `pre` be passed in a phase without failure and without
abort, and let the command of the next definition `hook` fail.  Then `runCommands` stops
there: the failing command is the last one run, so no command of a later definition is
run.  The error is the hook-failed error, also when `hook` has `abortOnSuccess` set: its
text is `action hook (<phase>) failed: <trimmed output>` when the output is not blank,
and otherwise it wraps the error of the execution.  `ExecuteBefore` then returns a nil
Execution with that error, and `ExecuteAfter` returns that error. -/
theorem C13_first_failure_stops (U : UnicodeTables) (m : Manager) (addr : Nat)
    (phase ck kl : String) (t t1 : List Event) (pre post : List ActionHook)
    (hook : ActionHook) (err : String)
    (hpre : m.runCommands pre phase ck kl t = (t1, none))
    (hcmd : phaseCommand phase hook ≠ "")
    (hfail : (m.osCommand t1 (buildCmdObj m.shellFunctionsFile phase ck kl hook)).err
      = some err) :
    let c := buildCmdObj m.shellFunctionsFile phase ck kl hook
    let out := (m.osCommand t1 c).output
    m.runCommands (pre ++ hook :: post) phase ck kl t
      = (t1 ++ [Event.run c], some (failureError phase out err)) ∧
    (∀ msg, failureError phase out err ≠ GoError.AbortError msg) ∧
    (TrimSpace out ≠ "" →
      failureError phase out err
        = GoError.errorf ("action hook (" ++ phase ++ ") failed: " ++ TrimSpace out)) ∧
    (TrimSpace out = "" →
      failureError phase out err
        = GoError.wrapf ("action hook (" ++ phase ++ ") failed: " ++ err) err) ∧
    (phase = phaseBefore → m.matchHooks U ck kl = pre ++ hook :: post →
      m.ExecuteBefore U addr ck kl t
        = (t1 ++ [Event.run c], none, some (failureError phase out err))) ∧
    (phase = phaseAfter → ∀ (e : Execution) (t0 : List Event),
      e.manager = m → e.hooks = pre ++ hook :: post → e.contextKey = ck →
      e.keyLabel = kl → t = t0 ++ [Event.after e.addr] →
      ExecuteAfter (some e) t0
        = (t1 ++ [Event.run c], some (failureError phase out err))) := by
  intro c out
  have hrun : m.runCommands (pre ++ hook :: post) phase ck kl t
      = (t1 ++ [Event.run c], some (failureError phase out err)) := by
    rw [runCommands_eq] at hpre ⊢
    rw [runLoop_append _ _ _ _ _ _ _ _ _ hpre]
    exact runLoop_cons_fail _ _ _ _ _ _ _ _ err hcmd hfail
  refine ⟨hrun, ?_, ?_, ?_, ?_, ?_⟩
  · intro msg
    unfold failureError
    split <;> simp
  · intro h
    simp [failureError, h]
  · intro h
    simp [failureError, h]
  · intro hp hm
    subst hp
    exact ExecuteBefore_of_error U m addr ck kl t _ _ _ hm (by simp) hrun
  · intro hp e t0 h1 h2 h3 h4 h5
    subst hp h1 h3 h4 h5
    simp only [ExecuteAfter, h2]
    exact hrun

/-- Witness of C13: the command of the only definition fails with the output `" boom "`;
the definition has `abortOnSuccess` set, and the error is the hook-failed error. -/
theorem C13_witness :
    failingManager.ExecuteBefore UnicodeTables.trivial 1 "files" "c" [] =
      ([Event.run
          { command := "echo before", shellFunctionsFile := "", dontLog := true,
            envVars := ["LAZYGIT_ACTION_CONTEXT=files", "LAZYGIT_ACTION_KEY=c",
                        "LAZYGIT_ACTION_PHASE=before"] }],
        none, some (GoError.errorf "action hook (before) failed: boom")) :=
  (C13_first_failure_stops UnicodeTables.trivial failingManager 1 phaseBefore "files" "c"
    [] [] [] []
    { Context := "files", Key := "c", Before := "echo before", After := "",
      LogOutput := false, AbortOnSuccess := true, AbortMessage := "" }
    "exit status 1" rfl (by decide) rfl).2.2.2.2.1 rfl (by decide)

/-- C14 fails as stated for the message: the abort carries the trimmed `abortMessage`.
For a definition with `abortOnSuccess` and the configured message `" stop it "`, whose
before-command succeeds, `ExecuteBefore` returns no Execution and an `AbortError` with
the message `"stop it"`, which is not the configured message. -/
theorem C14_counterexample_message_is_trimmed :
    paddedAbortManager.configured.map ActionHook.AbortMessage = [" stop it "] ∧
    paddedAbortManager.ExecuteBefore UnicodeTables.trivial 1 "files" "c" [] =
      ([Event.run
          { command := "echo before", shellFunctionsFile := "", dontLog := true,
            envVars := ["LAZYGIT_ACTION_CONTEXT=files", "LAZYGIT_ACTION_KEY=c",
                        "LAZYGIT_ACTION_PHASE=before"] }],
        none, some (GoError.AbortError "stop it")) ∧
    GoError.AbortError "stop it" ≠ GoError.AbortError " stop it " :=
  ⟨by decide, rfl, by decide⟩

/-- C14, as amended: let the definitions `pre` be passed in a phase without failure and
without abort, and let the command of the next definition `hook` succeed, `hook` having
`abortOnSuccess` set.  Then `runCommands` stops there (the command of `hook` is the last
one run, no command of a later definition is run) and returns an `AbortError` whose
message is the `abortMessage` of `hook` with surrounding white space trimmed, or the fixed
default `Action aborted by hook` when the trimmed message is empty (an unset message in
particular); `ExecuteBefore` then returns a nil Execution with that error. -/
theorem C14_abort_on_success_stops (U : UnicodeTables) (m : Manager) (addr : Nat)
    (phase ck kl : String) (t t1 : List Event) (pre post : List ActionHook)
    (hook : ActionHook)
    (hpre : m.runCommands pre phase ck kl t = (t1, none))
    (hcmd : phaseCommand phase hook ≠ "")
    (hsucc : (m.osCommand t1 (buildCmdObj m.shellFunctionsFile phase ck kl hook)).err = none)
    (habort : hook.AbortOnSuccess = true) :
    let c := buildCmdObj m.shellFunctionsFile phase ck kl hook
    m.runCommands (pre ++ hook :: post) phase ck kl t
      = (t1 ++ [Event.run c], some (abortError hook)) ∧
    (TrimSpace hook.AbortMessage ≠ "" →
      abortError hook = GoError.AbortError (TrimSpace hook.AbortMessage)) ∧
    (TrimSpace hook.AbortMessage = "" →
      abortError hook = GoError.AbortError "Action aborted by hook") ∧
    (hook.AbortMessage = "" →
      abortError hook = GoError.AbortError "Action aborted by hook") ∧
    (phase = phaseBefore → m.matchHooks U ck kl = pre ++ hook :: post →
      m.ExecuteBefore U addr ck kl t = (t1 ++ [Event.run c], none, some (abortError hook))) := by
  intro c
  have hrun : m.runCommands (pre ++ hook :: post) phase ck kl t
      = (t1 ++ [Event.run c], some (abortError hook)) := by
    rw [runCommands_eq] at hpre ⊢
    rw [runLoop_append _ _ _ _ _ _ _ _ _ hpre]
    exact runLoop_cons_abort _ _ _ _ _ _ _ _ hcmd hsucc habort
  refine ⟨hrun, ?_, ?_, ?_, ?_⟩
  · intro h
    simp [abortError, h]
  · intro h
    simp [abortError, h, DefaultAbortMessage]
  · intro h
    have h2 : TrimSpace hook.AbortMessage = "" := by rw [h]; rfl
    simp [abortError, h2, DefaultAbortMessage]
  · intro hp hm
    subst hp
    exact ExecuteBefore_of_error U m addr ck kl t _ _ _ hm (by simp) hrun

/-- Witness of C14 (amended): the definition with the padded message. -/
theorem C14_witness :
    paddedAbortManager.runCommands
      ([] ++ { Context := "files", Key := "c", Before := "echo before", After := "",
               LogOutput := false, AbortOnSuccess := true, AbortMessage := " stop it " } :: [])
      phaseBefore "files" "c" []
      = ([] ++ [Event.run (buildCmdObj paddedAbortManager.shellFunctionsFile phaseBefore
            "files" "c"
            { Context := "files", Key := "c", Before := "echo before", After := "",
              LogOutput := false, AbortOnSuccess := true, AbortMessage := " stop it " })],
          some (abortError
            { Context := "files", Key := "c", Before := "echo before", After := "",
              LogOutput := false, AbortOnSuccess := true, AbortMessage := " stop it " })) :=
  (C14_abort_on_success_stops UnicodeTables.trivial paddedAbortManager 1 phaseBefore
    "files" "c" [] [] [] []
    { Context := "files", Key := "c", Before := "echo before", After := "",
      LogOutput := false, AbortOnSuccess := true, AbortMessage := " stop it " }
    rfl (by decide) rfl rfl).1

/-- Function `finalizeActionHookExecution` either returns nil and changes nothing, or
resolves the active Execution: it clears it, sets `completed`, and returns what
`ExecuteAfter` returns. -/
theorem finalize_cases (gui : Gui) :
    finalizeActionHookExecution gui = (gui, none) ∨
      ∃ x, gui.actionHookState.execution = some x ∧
        gui.actionHookState.completed = false ∧
        finalizeActionHookExecution gui =
          (⟨⟨none, gui.actionHookState.pending, true⟩, (ExecuteAfter (some x) gui.trace).1⟩,
            (ExecuteAfter (some x) gui.trace).2) := by
  obtain ⟨⟨ex, p, c⟩, t⟩ := gui
  cases ex with
  | none => left; rfl
  | some x =>
    cases c with
    | true => left; simp [finalizeActionHookExecution]
    | false =>
      by_cases hp : 0 < p
      · left; simp [finalizeActionHookExecution, hp]
      · right
        exact ⟨x, rfl, rfl, by simp [finalizeActionHookExecution, hp]⟩

/-- The closure either returns nil without touching the trace, or (reporting success, on
its own active Execution) resolves it and returns what `ExecuteAfter` returns. -/
theorem call_cases (c : Completion) (b : Bool) (gui : Gui) :
    ((c.call b gui).2 = none ∧ (c.call b gui).1.trace = gui.trace) ∨
      (b = true ∧ samePtr gui.actionHookState.execution (some c.exec) = true ∧
        gui.actionHookState.completed = false ∧
        c.call b gui =
          (⟨⟨none, 0, true⟩, (ExecuteAfter (some c.exec) gui.trace).1⟩,
            (ExecuteAfter (some c.exec) gui.trace).2)) := by
  obtain ⟨⟨ex, p, cm⟩, t⟩ := gui
  by_cases hg : samePtr ex (some c.exec) = false ∨ cm = true
  · left
    rw [call_noop c b _ hg]
    exact ⟨rfl, rfl⟩
  · simp only [not_or, Bool.not_eq_false, Bool.not_eq_true] at hg
    obtain ⟨hs, hc⟩ := hg
    subst hc
    cases b with
    | false =>
      left
      by_cases hp : p - 1 = 0 <;> simp [Completion.call, hs, hp]
    | true =>
      by_cases hp : p - 1 = 0
      · right
        refine ⟨rfl, hs, rfl, ?_⟩
        simp [Completion.call, hs, hp]
      · left
        simp [Completion.call, hs, hp]

/-- C16: whenever `finalizeActionHookExecution` or a completion callback resolves the
active Execution by running `ExecuteAfter` (that is, whenever it changes the trace), it
returns exactly what that call of `ExecuteAfter` returned, nil or not, and it leaves
`execution = nil` and `completed = true`; no later sequence of registrations, callback
invocations, `finalize` and `abort` runs anything more.  For instance, when the first
after-hook has `abortOnSuccess`, `finalize` returns the `AbortError` with the default
message and the state is resolved. -/
theorem C16_resolution_returns_after_error (gui : Gui) (c : Completion) (b : Bool)
    (later : List Op) :
    ((finalizeActionHookExecution gui).1.trace ≠ gui.trace →
      ∃ x, gui.actionHookState.execution = some x ∧
        (finalizeActionHookExecution gui).2 = (ExecuteAfter (some x) gui.trace).2 ∧
        (finalizeActionHookExecution gui).1.trace = (ExecuteAfter (some x) gui.trace).1 ∧
        (finalizeActionHookExecution gui).1.actionHookState.execution = none ∧
        (finalizeActionHookExecution gui).1.actionHookState.completed = true ∧
        (runOps later (finalizeActionHookExecution gui).1).trace
          = (finalizeActionHookExecution gui).1.trace) ∧
    ((c.call b gui).1.trace ≠ gui.trace →
      samePtr gui.actionHookState.execution (some c.exec) = true ∧
        (c.call b gui).2 = (ExecuteAfter (some c.exec) gui.trace).2 ∧
        (c.call b gui).1.trace = (ExecuteAfter (some c.exec) gui.trace).1 ∧
        (c.call b gui).1.actionHookState.execution = none ∧
        (c.call b gui).1.actionHookState.completed = true ∧
        (runOps later (c.call b gui).1).trace = (c.call b gui).1.trace) ∧
    finalizeActionHookExecution (startActionHookExecution (some abortingExecution) sampleGui)
      = (⟨⟨none, 0, true⟩,
          [Event.after 2,
           Event.run
             { command := "echo after1", shellFunctionsFile := "", dontLog := true,
               envVars := ["LAZYGIT_ACTION_CONTEXT=files", "LAZYGIT_ACTION_KEY=c",
                           "LAZYGIT_ACTION_PHASE=after"] }]⟩,
         some (GoError.AbortError "Action aborted by hook")) := by
  refine ⟨?_, ?_, rfl⟩
  · intro hne
    rcases finalize_cases gui with h | ⟨x, hx, -, h⟩
    · rw [h] at hne
      exact absurd rfl hne
    · refine ⟨x, hx, ?_⟩
      rw [h]
      exact ⟨rfl, rfl, rfl, rfl, (runOps_completed later _ rfl).1⟩
  · intro hne
    rcases call_cases c b gui with ⟨-, h⟩ | ⟨-, hs, -, h⟩
    · exact absurd h hne
    · refine ⟨hs, ?_⟩
      rw [h]
      exact ⟨rfl, rfl, rfl, rfl, (runOps_completed later _ rfl).1⟩

/-- Witness of C16: the after-hook of the Execution has `abortOnSuccess`; `finalize`
returns the abort with the default message, the state is resolved, and a later `finalize`
and callback run nothing. -/
theorem C16_witness :
    ∃ x, (startActionHookExecution (some abortingExecution) sampleGui).actionHookState.execution
        = some x ∧
      (finalizeActionHookExecution
        (startActionHookExecution (some abortingExecution) sampleGui)).2
        = (ExecuteAfter (some x) (startActionHookExecution (some abortingExecution)
            sampleGui).trace).2 ∧
      (finalizeActionHookExecution
        (startActionHookExecution (some abortingExecution) sampleGui)).1.trace
        = (ExecuteAfter (some x) (startActionHookExecution (some abortingExecution)
            sampleGui).trace).1 ∧
      (finalizeActionHookExecution
        (startActionHookExecution (some abortingExecution)
          sampleGui)).1.actionHookState.execution = none ∧
      (finalizeActionHookExecution
        (startActionHookExecution (some abortingExecution)
          sampleGui)).1.actionHookState.completed = true ∧
      (runOps [Op.finalize, Op.invoke ⟨abortingExecution⟩ true]
        (finalizeActionHookExecution
          (startActionHookExecution (some abortingExecution) sampleGui)).1).trace
        = (finalizeActionHookExecution
            (startActionHookExecution (some abortingExecution) sampleGui)).1.trace :=
  (C16_resolution_returns_after_error
    (startActionHookExecution (some abortingExecution) sampleGui) ⟨abortingExecution⟩ true
    [Op.finalize, Op.invoke ⟨abortingExecution⟩ true]).1 (by decide)

/-! ## Invariants of sessions -/

/-- The state after an invocation: unchanged, or counted down by one on the callback's
own unresolved Execution, resolving it exactly when the count reaches zero. -/
theorem call_state (c : Completion) (b : Bool) (gui : Gui) :
    (c.call b gui).1.actionHookState = gui.actionHookState ∨
      (samePtr gui.actionHookState.execution (some c.exec) = true ∧
        gui.actionHookState.completed = false ∧
        ((gui.actionHookState.pending - 1 = 0 ∧
            (c.call b gui).1.actionHookState = ⟨none, 0, true⟩) ∨
          (gui.actionHookState.pending - 1 ≠ 0 ∧
            (c.call b gui).1.actionHookState =
              ⟨gui.actionHookState.execution, gui.actionHookState.pending - 1, false⟩))) := by
  obtain ⟨⟨ex, p, cm⟩, t⟩ := gui
  by_cases hg : samePtr ex (some c.exec) = false ∨ cm = true
  · left
    rw [call_noop c b _ hg]
  · simp only [not_or, Bool.not_eq_false, Bool.not_eq_true] at hg
    obtain ⟨hs, hc⟩ := hg
    subst hc
    right
    refine ⟨hs, rfl, ?_⟩
    by_cases hp : p - 1 = 0
    · left
      refine ⟨hp, ?_⟩
      cases b <;> simp [Completion.call, hs, hp]
    · right
      refine ⟨hp, ?_⟩
      cases b <;> simp [Completion.call, hs, hp]

/-- The state after `finalize`: unchanged, or resolved with `pending` as it was. -/
theorem finalize_state (gui : Gui) :
    (finalizeActionHookExecution gui).1.actionHookState = gui.actionHookState ∨
      (finalizeActionHookExecution gui).1.actionHookState
        = ⟨none, gui.actionHookState.pending, true⟩ := by
  rcases finalize_cases gui with h | ⟨x, -, -, h⟩
  · left; rw [h]
  · right; rw [h]

/-- What `registerActionHookCompletion` does: nothing, returning nil, when there is no
active Execution or the state is completed; otherwise it counts one more pending
completion and returns a callback bound to the active Execution. -/
theorem register_cases (gui : Gui) :
    ((gui.actionHookState.execution = none ∨ gui.actionHookState.completed = true) ∧
        registerActionHookCompletion gui = (gui, none)) ∨
      ∃ x, gui.actionHookState.execution = some x ∧
        gui.actionHookState.completed = false ∧
        registerActionHookCompletion gui =
          (⟨⟨some x, gui.actionHookState.pending + 1, false⟩, gui.trace⟩, some ⟨x⟩) := by
  obtain ⟨⟨ex, p, cm⟩, t⟩ := gui
  cases ex with
  | none => left; exact ⟨Or.inl rfl, rfl⟩
  | some x =>
    cases cm with
    | true => left; exact ⟨Or.inr rfl, by simp [registerActionHookCompletion]⟩
    | false => right; exact ⟨x, rfl, rfl, by simp [registerActionHookCompletion]⟩

/-- In every state, `completed` without an active Execution is kept by every call. -/
theorem apply_completed_nil (a : Action) (s : Session)
    (h : s.gui.actionHookState.completed = true → s.gui.actionHookState.execution = none) :
    (a.apply s).gui.actionHookState.completed = true →
      (a.apply s).gui.actionHookState.execution = none := by
  cases a with
  | start e =>
    cases e with
    | none => intro _; rfl
    | some x => intro hc; cases hc
  | register =>
    show (registerActionHookCompletion s.gui).1.actionHookState.completed = true →
      (registerActionHookCompletion s.gui).1.actionHookState.execution = none
    rcases register_cases s.gui with ⟨-, hr⟩ | ⟨x, -, -, hr⟩
    · rw [hr]; exact h
    · rw [hr]; intro hc; cases hc
  | invoke i b =>
    simp only [Action.apply]
    split
    · rename_i c _
      show (c.call b s.gui).1.actionHookState.completed = true →
        (c.call b s.gui).1.actionHookState.execution = none
      rcases call_state c b s.gui with hu | ⟨-, hc, ⟨-, hn⟩ | ⟨-, hn⟩⟩
      · rw [hu]; exact h
      · rw [hn]; intro _; rfl
      · rw [hn]; intro hx; cases hx
    · exact h
  | finalize =>
    show (finalizeActionHookExecution s.gui).1.actionHookState.completed = true →
      (finalizeActionHookExecution s.gui).1.actionHookState.execution = none
    rcases finalize_state s.gui with hu | hn
    · rw [hu]; exact h
    · rw [hn]; intro _; rfl
  | abort => intro _; rfl

theorem runActions_completed_nil (as : List Action) (s : Session)
    (h : s.gui.actionHookState.completed = true → s.gui.actionHookState.execution = none) :
    (runActions as s).gui.actionHookState.completed = true →
      (runActions as s).gui.actionHookState.execution = none := by
  induction as generalizing s with
  | nil => exact h
  | cons a as ih => exact ih (a.apply s) (apply_completed_nil a s h)

/-- C17: in every state reachable from the zero state by `start`, registrations,
invocations of returned callbacks, `finalize` and `abort`, `completed = true` implies
`execution = nil`; and in every state (the zero state included)
`registerActionHookCompletion` returns the nil callback exactly when `execution = nil` or
`completed = true`, and then it leaves the state unchanged. -/
theorem C17_completed_implies_no_execution (as : List Action) (gui : Gui) :
    ((runActions as Session.initial).gui.actionHookState.completed = true →
      (runActions as Session.initial).gui.actionHookState.execution = none) ∧
    ((registerActionHookCompletion gui).2 = none ↔
      (gui.actionHookState.execution = none ∨ gui.actionHookState.completed = true)) ∧
    ((registerActionHookCompletion gui).2 = none →
      registerActionHookCompletion gui = (gui, none)) ∧
    registerActionHookCompletion Session.initial.gui = (Session.initial.gui, none) := by
  refine ⟨runActions_completed_nil as Session.initial (fun h => by cases h), ?_, ?_, rfl⟩
  · rcases register_cases gui with ⟨hc, hr⟩ | ⟨x, hx, hc, hr⟩
    · rw [hr]
      exact ⟨fun _ => hc, fun _ => rfl⟩
    · rw [hr, hx, hc]
      simp
  · intro hn
    rcases register_cases gui with ⟨-, hr⟩ | ⟨x, -, -, hr⟩
    · exact hr
    · rw [hr] at hn
      cases hn

/-- Witness of C17: after `start`, a registration, its failed completion and `finalize`
the state is completed and holds no Execution. -/
theorem C17_witness :
    (runActions
      [Action.start (some sampleExecution), Action.register, Action.invoke 0 false,
        Action.finalize] Session.initial).gui.actionHookState.execution = none :=
  (C17_completed_implies_no_execution
    [Action.start (some sampleExecution), Action.register, Action.invoke 0 false,
      Action.finalize] sampleGui).1 (by decide)

theorem samePtr_some (ex : Option Execution) (y : Execution)
    (h : samePtr ex (some y) = true) : ∃ x, ex = some x ∧ x.addr = y.addr := by
  cases ex with
  | none => cases h
  | some x => exact ⟨x, rfl, by simpa [samePtr] using h⟩

/-- A call keeps the bookkeeping of a session consistent, provided that a `start` is
given nil or an Execution that was not started before. -/
theorem apply_consistent (a : Action) (s : Session) (h : s.consistent)
    (hf : ∀ e, a = Action.start (some e) → e.addr ∉ s.started) :
    (a.apply s).consistent := by
  obtain ⟨h1, h2, h3, h4⟩ := h
  cases a with
  | start e =>
    cases e with
    | none =>
      refine ⟨le_refl _, h2, ?_, ?_⟩
      · intro x hx; cases hx
      · intro x hx; cases hx
    | some e =>
      have hfresh := hf e rfl
      refine ⟨le_refl _, ?_, ?_, ?_⟩
      · intro c hc
        exact List.mem_cons_of_mem _ (h2 c hc)
      · intro x hx
        have hxe : e = x := by
          simpa [Action.apply, startActionHookExecution] using hx
        subst hxe
        exact List.mem_cons_self _ _
      · intro x hx _ _ c hc heq
        have hxe : e = x := by
          simpa [Action.apply, startActionHookExecution] using hx
        subst hxe
        exact hfresh (heq ▸ h2 c hc)
  | register =>
    show Session.consistent
      { s with
        gui := (registerActionHookCompletion s.gui).1
        issued := s.issued ++ [(registerActionHookCompletion s.gui).2] }
    rcases register_cases s.gui with ⟨-, hr⟩ | ⟨x, hx, hc, hr⟩
    · rw [hr]
      refine ⟨h1, ?_, h3, ?_⟩
      · intro c hc
        simp only [List.mem_append, List.mem_singleton] at hc
        rcases hc with hc | hc
        · exact h2 c hc
        · cases hc
      · intro x hx hcm hp c hc
        simp only [List.mem_append, List.mem_singleton] at hc
        rcases hc with hc | hc
        · exact h4 x hx hcm hp c hc
        · cases hc
    · rw [hr]
      refine ⟨?_, ?_, ?_, ?_⟩
      · show 0 ≤ s.gui.actionHookState.pending + 1
        omega
      · intro c hc
        simp only [List.mem_append, List.mem_singleton, Option.some.injEq] at hc
        rcases hc with hc | hc
        · exact h2 c hc
        · subst hc
          exact h3 x hx
      · intro y hy
        have hxy : x = y := by simpa using hy
        subst hxy
        exact h3 x hx
      · intro y _ _ hp
        have hp2 : s.gui.actionHookState.pending + 1 = 0 := hp
        omega
  | invoke i b =>
    simp only [Action.apply]
    split
    · rename_i c hget
      have hmem : some c ∈ s.issued := List.get?_mem hget
      show Session.consistent { s with gui := (c.call b s.gui).1 }
      rcases call_state c b s.gui with hu | ⟨hs, hcm, hcase⟩
      · exact ⟨by rw [hu]; exact h1, h2, by rw [hu]; exact h3, by rw [hu]; exact h4⟩
      · obtain ⟨x, hx, hax⟩ := samePtr_some _ _ hs
        have hp : s.gui.actionHookState.pending ≠ 0 := by
          intro hp0
          exact h4 x hx hcm hp0 c hmem hax.symm
        rcases hcase with ⟨-, hn⟩ | ⟨hne, hn⟩
        · refine ⟨by rw [hn], h2, ?_, ?_⟩
          · intro y hy
            rw [hn] at hy
            cases hy
          · intro y hy
            rw [hn] at hy
            cases hy
        · refine ⟨?_, h2, ?_, ?_⟩
          · rw [hn]
            show 0 ≤ s.gui.actionHookState.pending - 1
            omega
          · intro y hy
            rw [hn] at hy
            exact h3 y hy
          · intro y _ _ hp0
            rw [hn] at hp0
            exact absurd hp0 hne
    · exact ⟨h1, h2, h3, h4⟩
  | finalize =>
    show Session.consistent { s with gui := (finalizeActionHookExecution s.gui).1 }
    rcases finalize_state s.gui with hu | hn
    · exact ⟨by rw [hu]; exact h1, h2, by rw [hu]; exact h3, by rw [hu]; exact h4⟩
    · refine ⟨by rw [hn]; exact h1, h2, ?_, ?_⟩
      · intro y hy
        rw [hn] at hy
        cases hy
      · intro y hy
        rw [hn] at hy
        cases hy
  | abort =>
    refine ⟨le_refl _, h2, ?_, ?_⟩
    · intro x hx; cases hx
    · intro x hx; cases hx

theorem runActions_consistent (as : List Action) (s : Session) (h : s.consistent)
    (hf : freshStarts s.started as) : (runActions as s).consistent := by
  induction as generalizing s with
  | nil => exact h
  | cons a as ih =>
    cases a with
    | start e =>
      cases e with
      | none => exact ih _ (apply_consistent _ s h (fun e he => by cases he)) hf
      | some e =>
        exact ih _ (apply_consistent _ s h (fun x hx => by cases hx; exact hf.1)) hf.2
    | register => exact ih _ (apply_consistent _ s h (fun e he => by cases he)) hf
    | invoke i b =>
      refine ih _ (apply_consistent _ s h (fun e he => by cases he)) ?_
      have hst : ((Action.invoke i b).apply s).started = s.started := by
        simp only [Action.apply]
        split <;> rfl
      rw [hst]
      exact hf
    | finalize => exact ih _ (apply_consistent _ s h (fun e he => by cases he)) hf
    | abort => exact ih _ (apply_consistent _ s h (fun e he => by cases he)) hf

/-- C18 fails as stated: `pending` can become negative when an Execution is started
again.  After `start(e)`, one registration and a second `start(e)` with the same
Execution, `pending` is 0 and the callback of the registration still passes the identity
check; invoking it counts `pending` down to `-1` (and leaves the Execution unresolved). -/
theorem C18_counterexample_restart_same_execution :
    (runActions
      [Action.start (some sampleExecution), Action.register,
        Action.start (some sampleExecution), Action.invoke 0 true]
      Session.initial).gui.actionHookState.pending = -1 ∧
    (runActions
      [Action.start (some sampleExecution), Action.register,
        Action.start (some sampleExecution), Action.invoke 0 true]
      Session.initial).gui.actionHookState.completed = false := by
  constructor <;> decide

/-- C18, as amended: in every state reachable from the zero state by a sequence of
`start` (each with nil or an Execution that was not given to `start` before),
registrations, invocations of returned callbacks (any of them, any number of times, with
any success value), `finalize` and `abort`, the pending count is not negative. -/
theorem C18_pending_nonnegative (as : List Action) (hf : freshStarts [] as) :
    0 ≤ (runActions as Session.initial).gui.actionHookState.pending := by
  have h0 : Session.initial.consistent := by
    refine ⟨le_refl _, ?_, ?_, ?_⟩
    · intro c hc; cases hc
    · intro x hx; cases hx
    · intro x hx; cases hx
  exact (runActions_consistent as Session.initial h0 hf).1

/-- Witness of C18 (amended): two Executions started one after the other, a callback of
the first invoked twice after the second `start`. -/
theorem C18_witness :
    0 ≤ (runActions
      [Action.start (some sampleExecution), Action.register,
        Action.start (some abortingExecution), Action.invoke 0 true, Action.invoke 0 false,
        Action.register, Action.invoke 1 true]
      Session.initial).gui.actionHookState.pending :=
  C18_pending_nonnegative
    [Action.start (some sampleExecution), Action.register,
      Action.start (some abortingExecution), Action.invoke 0 true, Action.invoke 0 false,
      Action.register, Action.invoke 1 true]
    (by simp [freshStarts, sampleExecution, abortingExecution])

/-! ## The command objects -/

theorem plannedCommands_mem (sf phase ck kl : String) (hooks : List ActionHook) (c : CmdObj)
    (h : c ∈ plannedCommands sf phase ck kl hooks) :
    ∃ hook ∈ hooks, phaseCommand phase hook ≠ "" ∧ c = buildCmdObj sf phase ck kl hook := by
  simp only [plannedCommands, List.mem_filterMap] at h
  obtain ⟨hook, hmem, hc⟩ := h
  refine ⟨hook, hmem, ?_⟩
  by_cases hb : phaseCommand phase hook = ""
  · simp only [phaseCommand] at hb
    simp [hb] at hc
  · refine ⟨hb, ?_⟩
    simp only [phaseCommand] at hb
    simp only [hb, if_false, Option.some.injEq] at hc
    rw [← hc]
    rfl

/-- The commands `runCommands` runs are command objects built for definitions of its
list whose command for the phase is not blank. -/
theorem runCommands_objects (m : Manager) (hooks : List ActionHook) (phase ck kl : String)
    (t : List Event) :
    ∃ cs : List CmdObj,
      (m.runCommands hooks phase ck kl t).1 = t ++ cs.map Event.run ∧
      ∀ c ∈ cs, ∃ hook ∈ hooks, phaseCommand phase hook ≠ "" ∧
        c = buildCmdObj m.shellFunctionsFile phase ck kl hook := by
  obtain ⟨cs, h1, h2, -⟩ :=
    runLoop_planned m.osCommand m.shellFunctionsFile phase ck kl hooks t
  exact ⟨cs, h1, fun c hc => plannedCommands_mem _ _ _ _ _ _ (h2.subset hc)⟩

/-- C19: every command that `runCommands` runs for a definition is built from the
trimmed, non-blank command of that definition for the phase and from the shell functions
file of the configuration, has logging suppressed exactly when `logOutput` is false, and
carries exactly the three assignments `LAZYGIT_ACTION_CONTEXT=<context>`,
`LAZYGIT_ACTION_KEY=<key>` and `LAZYGIT_ACTION_PHASE=<phase>`, with the context and key as
the caller passed them; the phase is `before` for the commands run by `ExecuteBefore` and
`after` for those run by `ExecuteAfter`. -/
theorem C19_command_objects (U : UnicodeTables) (m : Manager) (addr : Nat)
    (hooks : List ActionHook) (phase ck kl : String) (t : List Event) (e : Execution) :
    (∃ cs : List CmdObj,
      (m.runCommands hooks phase ck kl t).1 = t ++ cs.map Event.run ∧
      ∀ c ∈ cs, ∃ hook ∈ hooks,
        phaseCommand phase hook ≠ "" ∧
        c.command = phaseCommand phase hook ∧
        c.shellFunctionsFile = m.shellFunctionsFile ∧
        (c.dontLog = true ↔ hook.LogOutput = false) ∧
        c.envVars =
          ["LAZYGIT_ACTION_CONTEXT=" ++ ck, "LAZYGIT_ACTION_KEY=" ++ kl,
           "LAZYGIT_ACTION_PHASE=" ++ phase]) ∧
    (∃ cs : List CmdObj,
      (m.ExecuteBefore U addr ck kl t).1 = t ++ cs.map Event.run ∧
      ∀ c ∈ cs, ∃ hook ∈ m.matchHooks U ck kl,
        TrimSpace hook.Before ≠ "" ∧
        c.command = TrimSpace hook.Before ∧
        (c.dontLog = true ↔ hook.LogOutput = false) ∧
        c.envVars =
          ["LAZYGIT_ACTION_CONTEXT=" ++ ck, "LAZYGIT_ACTION_KEY=" ++ kl,
           "LAZYGIT_ACTION_PHASE=before"]) ∧
    (∃ cs : List CmdObj,
      (ExecuteAfter (some e) t).1 = t ++ Event.after e.addr :: cs.map Event.run ∧
      ∀ c ∈ cs, ∃ hook ∈ e.hooks,
        TrimSpace hook.After ≠ "" ∧
        c.command = TrimSpace hook.After ∧
        (c.dontLog = true ↔ hook.LogOutput = false) ∧
        c.envVars =
          ["LAZYGIT_ACTION_CONTEXT=" ++ e.contextKey, "LAZYGIT_ACTION_KEY=" ++ e.keyLabel,
           "LAZYGIT_ACTION_PHASE=after"]) := by
  have hobj : ∀ (sf ph a b : String) (hook : ActionHook) (c : CmdObj),
      c = buildCmdObj sf ph a b hook →
        c.command = phaseCommand ph hook ∧
        c.shellFunctionsFile = sf ∧
        (c.dontLog = true ↔ hook.LogOutput = false) ∧
        c.envVars =
          ["LAZYGIT_ACTION_CONTEXT=" ++ a, "LAZYGIT_ACTION_KEY=" ++ b,
           "LAZYGIT_ACTION_PHASE=" ++ ph] := by
    intro sf ph a b hook c hc
    subst hc
    refine ⟨rfl, rfl, ?_, rfl⟩
    simp [buildCmdObj]
  refine ⟨?_, ?_, ?_⟩
  · obtain ⟨cs, h1, h2⟩ := runCommands_objects m hooks phase ck kl t
    refine ⟨cs, h1, fun c hc => ?_⟩
    obtain ⟨hook, hm, hb, hceq⟩ := h2 c hc
    exact ⟨hook, hm, hb, hobj _ _ _ _ _ _ hceq⟩
  · by_cases hl : (m.matchHooks U ck kl).length = 0
    · refine ⟨[], ?_, fun c hc => by cases hc⟩
      simp [Manager.ExecuteBefore, hl]
    · obtain ⟨cs, h1, h2⟩ :=
        runCommands_objects m (m.matchHooks U ck kl) phaseBefore ck kl t
      refine ⟨cs, ?_, fun c hc => ?_⟩
      · simp only [Manager.ExecuteBefore, hl, if_false]
        split <;> exact h1
      · obtain ⟨hook, hm, hb, hceq⟩ := h2 c hc
        obtain ⟨k1, -, k3, k4⟩ := hobj _ _ _ _ _ _ hceq
        rw [phaseCommand_before] at hb k1
        exact ⟨hook, hm, hb, k1, k3, k4⟩
  · obtain ⟨cs, h1, h2⟩ :=
      runCommands_objects e.manager e.hooks phaseAfter e.contextKey e.keyLabel
        (t ++ [Event.after e.addr])
    refine ⟨cs, ?_, fun c hc => ?_⟩
    · simp only [ExecuteAfter]
      rw [h1]
      simp
    · obtain ⟨hook, hm, hb, hceq⟩ := h2 c hc
      obtain ⟨k1, -, k3, k4⟩ := hobj _ _ _ _ _ _ hceq
      rw [phaseCommand_after] at hb k1
      exact ⟨hook, hm, hb, k1, k3, k4⟩

/-- Witness of C19: the one command that `ExecuteBefore` runs for the sample
configuration. -/
theorem C19_witness :
    ∃ cs : List CmdObj,
      (sampleManager.ExecuteBefore UnicodeTables.trivial 1 "files" "c" []).1
        = [] ++ cs.map Event.run ∧
      ∀ c ∈ cs, ∃ hook ∈ sampleManager.matchHooks UnicodeTables.trivial "files" "c",
        TrimSpace hook.Before ≠ "" ∧
        c.command = TrimSpace hook.Before ∧
        (c.dontLog = true ↔ hook.LogOutput = false) ∧
        c.envVars =
          ["LAZYGIT_ACTION_CONTEXT=" ++ "files", "LAZYGIT_ACTION_KEY=" ++ "c",
           "LAZYGIT_ACTION_PHASE=before"] :=
  (C19_command_objects UnicodeTables.trivial sampleManager 1 [] phaseBefore "files" "c" []
    sampleExecution).2.1

/-! ## The mutex and the hook commands -/

theorem lockAfter_effects (effs : List Event) (pre post : List MutexEvent) (ev : Event)
    (h : effs.map MutexEvent.effect ++ [MutexEvent.unlock]
      = pre ++ MutexEvent.effect ev :: post) :
    lockAfter true pre = true := by
  induction effs generalizing pre with
  | nil =>
    cases pre with
    | nil => cases h
    | cons q pre =>
      simp only [List.map_nil, List.nil_append, List.cons_append, List.cons.injEq] at h
      have := h.2
      simp at this
  | cons x effs ih =>
    cases pre with
    | nil => rfl
    | cons q pre =>
      simp only [List.map_cons, List.cons_append, List.cons.injEq] at h
      obtain ⟨hq, hrest⟩ := h
      subst hq
      exact ih pre hrest

/-- In an operation of the shape `Lock(); defer Unlock(); body`, every effect of the body
takes place while the mutex is held, and the mutex is free at the end. -/
theorem withMutex_held {α : Type} (body : Gui → Gui × α) (gui : Gui) :
    (∀ pre ev post, (withMutex body gui).1 = pre ++ MutexEvent.effect ev :: post →
      lockHeld pre = true) ∧
    lockHeld (withMutex body gui).1 = false := by
  constructor
  · intro pre ev post h
    simp only [withMutex] at h
    cases pre with
    | nil => cases h
    | cons q pre =>
      simp only [List.cons_append, List.cons.injEq] at h
      obtain ⟨hq, hrest⟩ := h
      subst hq
      exact lockAfter_effects _ pre post ev hrest
  · simp only [withMutex, lockHeld, lockAfter]
    generalize (List.drop gui.trace.length (body gui).1.trace) = effs
    induction effs with
    | nil => rfl
    | cons x effs ih => simpa [lockAfter] using ih

/-- The effects of `finalize` and of a callback are appended to the trace. -/
theorem finalize_trace_grows (gui : Gui) :
    ∃ evs, (finalizeActionHookExecution gui).1.trace = gui.trace ++ evs := by
  rcases finalize_cases gui with h | ⟨x, -, -, h⟩
  · exact ⟨[], by rw [h]; simp⟩
  · obtain ⟨cs, hcs⟩ := ExecuteAfter_trace x gui.trace
    exact ⟨_, by rw [h]; exact hcs⟩

theorem call_trace_grows (c : Completion) (b : Bool) (gui : Gui) :
    ∃ evs, (c.call b gui).1.trace = gui.trace ++ evs := by
  rcases call_cases c b gui with ⟨-, h⟩ | ⟨-, -, -, h⟩
  · exact ⟨[], by rw [h]; simp⟩
  · obtain ⟨cs, hcs⟩ := ExecuteAfter_trace c.exec gui.trace
    exact ⟨_, by rw [h]; exact hcs⟩

theorem withMutex_events {α : Type} (body : Gui → Gui × α) (gui : Gui) (evs : List Event)
    (h : (body gui).1.trace = gui.trace ++ evs) :
    (withMutex body gui).1 =
      MutexEvent.lock :: (evs.map MutexEvent.effect ++ [MutexEvent.unlock]) := by
  simp [withMutex, h]

/-- C20 fails as stated: the unlock is deferred, so it happens after `ExecuteAfter` has
returned.  For `finalize` after `start`, and for the callback after `start` and one
registration, the events are: lock, the call of `ExecuteAfter` with its command
`echo after`, unlock; the mutex is held when the command is run. -/
theorem C20_counterexample_command_under_lock :
    (finalizeActionHookExecutionLocked
      (startActionHookExecution (some sampleExecution) sampleGui)).1
      = [MutexEvent.lock,
         MutexEvent.effect (Event.after 1),
         MutexEvent.effect
           (Event.run
             { command := "echo after", shellFunctionsFile := "", dontLog := true,
               envVars := ["LAZYGIT_ACTION_CONTEXT=files", "LAZYGIT_ACTION_KEY=c",
                           "LAZYGIT_ACTION_PHASE=after"] }),
         MutexEvent.unlock] ∧
    lockHeld [MutexEvent.lock, MutexEvent.effect (Event.after 1)] = true ∧
    (Completion.callLocked ⟨sampleExecution⟩ true
      (runOps [Op.register] (startActionHookExecution (some sampleExecution) sampleGui))).1
      = [MutexEvent.lock,
         MutexEvent.effect (Event.after 1),
         MutexEvent.effect
           (Event.run
             { command := "echo after", shellFunctionsFile := "", dontLog := true,
               envVars := ["LAZYGIT_ACTION_CONTEXT=files", "LAZYGIT_ACTION_KEY=c",
                           "LAZYGIT_ACTION_PHASE=after"] }),
         MutexEvent.unlock] := by
  refine ⟨by decide, by decide, by decide⟩

/-- C20, as amended: in `finalizeActionHookExecution` and in the completion callback the
mutex is taken first and released last (the unlock is deferred).  The bookkeeping and the
call of `ExecuteAfter` with every hook command it runs all take place while the mutex is
held; the mutex is released only after `ExecuteAfter` has returned, and it is free when
the operation returns. -/
theorem C20_after_commands_run_under_lock (gui : Gui) (c : Completion) (b : Bool) :
    (∃ evs, (finalizeActionHookExecution gui).1.trace = gui.trace ++ evs ∧
      (finalizeActionHookExecutionLocked gui).1 =
        MutexEvent.lock :: (evs.map MutexEvent.effect ++ [MutexEvent.unlock])) ∧
    (∀ pre ev post,
      (finalizeActionHookExecutionLocked gui).1 = pre ++ MutexEvent.effect ev :: post →
      lockHeld pre = true) ∧
    lockHeld (finalizeActionHookExecutionLocked gui).1 = false ∧
    (finalizeActionHookExecutionLocked gui).2 = finalizeActionHookExecution gui ∧
    (∃ evs, (c.call b gui).1.trace = gui.trace ++ evs ∧
      (c.callLocked b gui).1 =
        MutexEvent.lock :: (evs.map MutexEvent.effect ++ [MutexEvent.unlock])) ∧
    (∀ pre ev post, (c.callLocked b gui).1 = pre ++ MutexEvent.effect ev :: post →
      lockHeld pre = true) ∧
    lockHeld (c.callLocked b gui).1 = false ∧
    (c.callLocked b gui).2 = c.call b gui := by
  obtain ⟨evs1, h1⟩ := finalize_trace_grows gui
  obtain ⟨evs2, h2⟩ := call_trace_grows c b gui
  exact ⟨⟨evs1, h1, withMutex_events _ gui evs1 h1⟩,
    (withMutex_held finalizeActionHookExecution gui).1,
    (withMutex_held finalizeActionHookExecution gui).2, rfl,
    ⟨evs2, h2, withMutex_events _ gui evs2 h2⟩,
    (withMutex_held (c.call b) gui).1, (withMutex_held (c.call b) gui).2, rfl⟩

/-- Witness of C20 (amended): the mutex is held before the command of the sample
Execution is run by `finalize`. -/
theorem C20_witness :
    lockHeld [MutexEvent.lock, MutexEvent.effect (Event.after 1)] = true :=
  (C20_after_commands_run_under_lock
    (startActionHookExecution (some sampleExecution) sampleGui) ⟨sampleExecution⟩ true).2.1
    [MutexEvent.lock, MutexEvent.effect (Event.after 1)]
    (Event.run
      { command := "echo after", shellFunctionsFile := "", dontLog := true,
        envVars := ["LAZYGIT_ACTION_CONTEXT=files", "LAZYGIT_ACTION_KEY=c",
                    "LAZYGIT_ACTION_PHASE=after"] })
    [MutexEvent.unlock] (by decide)

/-! ## Definitions without a command for the phase -/

/-- A definition whose command for the phase is blank is skipped, whatever its
`abortOnSuccess` says. -/
theorem runLoop_skip (R : Runner) (sf phase ck kl : String) (pre post : List ActionHook)
    (hook : ActionHook) (t t1 : List Event)
    (hpre : runLoop R sf phase ck kl pre t = (t1, none))
    (hb : phaseCommand phase hook = "") :
    runLoop R sf phase ck kl (pre ++ hook :: post) t = runLoop R sf phase ck kl post t1 := by
  rw [runLoop_append _ _ _ _ _ _ _ _ _ hpre, runLoop_cons_blank _ _ _ _ _ _ _ _ hb]

/-- C21: `abortOnSuccess` takes effect only in a phase for which the definition has a
non-blank command.  A definition with `abortOnSuccess` and a blank command for the phase
is skipped by `runCommands`, which goes on with the later definitions; so when such a
matched definition has a blank before-command and the other definitions are passed,
`ExecuteBefore` returns a nil error and an Execution that holds all matched definitions.
`ExecuteAfter` on an Execution returns the abort of that definition when the earlier
definitions are passed and its non-blank after-command succeeds.  And whenever
`runCommands` returns an `AbortError`, it is the abort of a definition whose non-blank
command for the phase was just run and succeeded. -/
theorem C21_abort_needs_command (U : UnicodeTables) (m : Manager) (addr : Nat)
    (phase ck kl : String) (t t1 : List Event) (pre post : List ActionHook)
    (hook : ActionHook)
    (hpre : m.runCommands pre phase ck kl t = (t1, none))
    (hblank : phaseCommand phase hook = "")
    (habort : hook.AbortOnSuccess = true) :
    hook.AbortOnSuccess = true ∧
    m.runCommands (pre ++ hook :: post) phase ck kl t = m.runCommands post phase ck kl t1 ∧
    (phase = phaseBefore → m.matchHooks U ck kl = pre ++ hook :: post →
      ∀ t2, m.runCommands post phaseBefore ck kl t1 = (t2, none) →
        TrimSpace hook.Before = "" ∧
        m.ExecuteBefore U addr ck kl t =
          (t2,
            some { addr := addr, manager := m, hooks := pre ++ hook :: post,
                   contextKey := ck, keyLabel := kl },
            none)) ∧
    (∀ (e : Execution) (t0 t3 : List Event),
      e.hooks = pre ++ hook :: post →
      e.manager.runCommands pre phaseAfter e.contextKey e.keyLabel
        (t0 ++ [Event.after e.addr]) = (t3, none) →
      TrimSpace hook.After ≠ "" →
      (e.manager.osCommand t3 (buildCmdObj e.manager.shellFunctionsFile phaseAfter
        e.contextKey e.keyLabel hook)).err = none →
      ExecuteAfter (some e) t0 =
        (t3 ++ [Event.run (buildCmdObj e.manager.shellFunctionsFile phaseAfter
          e.contextKey e.keyLabel hook)], some (abortError hook))) ∧
    (∀ (hooks : List ActionHook) (ph : String) (s : List Event) (msg : String),
      (m.runCommands hooks ph ck kl s).2 = some (GoError.AbortError msg) →
      ∃ pre2 hook2 post2 s1,
        hooks = pre2 ++ hook2 :: post2 ∧
        m.runCommands pre2 ph ck kl s = (s1, none) ∧
        phaseCommand ph hook2 ≠ "" ∧
        (m.osCommand s1 (buildCmdObj m.shellFunctionsFile ph ck kl hook2)).err = none ∧
        hook2.AbortOnSuccess = true ∧
        GoError.AbortError msg = abortError hook2 ∧
        (m.runCommands hooks ph ck kl s).1
          = s1 ++ [Event.run (buildCmdObj m.shellFunctionsFile ph ck kl hook2)]) := by
  have hskip : m.runCommands (pre ++ hook :: post) phase ck kl t
      = m.runCommands post phase ck kl t1 := by
    rw [runCommands_eq] at hpre ⊢
    exact runLoop_skip _ _ _ _ _ _ _ _ _ _ hpre hblank
  refine ⟨habort, hskip, ?_, ?_, ?_⟩
  · intro hp hm t2 hpost
    subst hp
    rw [phaseCommand_before] at hblank
    refine ⟨hblank, ?_⟩
    exact ExecuteBefore_of_nil U m addr ck kl t _ _ hm (by simp) (by rw [hskip, hpost])
  · intro e t0 t3 hh hp3 hcmd hsucc
    simp only [ExecuteAfter, hh]
    rw [runCommands_eq] at hp3 ⊢
    rw [runLoop_append _ _ _ _ _ _ _ _ _ hp3]
    exact runLoop_cons_abort _ _ _ _ _ _ _ _ (by rw [phaseCommand_after]; exact hcmd)
      hsucc habort
  · intro hooks ph s msg hm
    obtain ⟨pre2, hook2, post2, s1, h1, h2, h3, h4, h5⟩ :=
      runLoop_error m.osCommand m.shellFunctionsFile ph ck kl hooks s _ hm
    rcases h5 with ⟨x, -, hx⟩ | ⟨hr, ha, he⟩
    · exfalso
      unfold failureError at hx
      split at hx <;> cases hx
    · exact ⟨pre2, hook2, post2, s1, h1, h2, h3, hr, ha, he, h4⟩

/-- Witness of C21: both definitions of the configuration have a blank before-command,
the first with `abortOnSuccess`; `ExecuteBefore` runs nothing and returns the Execution. -/
theorem C21_witness :
    TrimSpace
      ({ Context := "files", Key := "c", Before := "", After := "echo after1",
         LogOutput := false, AbortOnSuccess := true, AbortMessage := "" } : ActionHook).Before
      = "" ∧
    abortingManager.ExecuteBefore UnicodeTables.trivial 2 "files" "c" [] =
      ([],
        some { addr := 2, manager := abortingManager,
               hooks := [] ++
                 { Context := "files", Key := "c", Before := "", After := "echo after1",
                   LogOutput := false, AbortOnSuccess := true, AbortMessage := "" } ::
                 [{ Context := "files", Key := "c", Before := "", After := "echo after2",
                    LogOutput := false, AbortOnSuccess := false, AbortMessage := "" }],
               contextKey := "files", keyLabel := "c" },
        none) :=
  (C21_abort_needs_command UnicodeTables.trivial abortingManager 2 phaseBefore "files" "c"
    [] [] []
    [{ Context := "files", Key := "c", Before := "", After := "echo after2",
       LogOutput := false, AbortOnSuccess := false, AbortMessage := "" }]
    { Context := "files", Key := "c", Before := "", After := "echo after1",
      LogOutput := false, AbortOnSuccess := true, AbortMessage := "" }
    rfl (by decide) rfl).2.2.1 rfl (by decide) [] rfl

/-! ## Normalisation of the query -/

theorem toLower_ascii (c : Char) (h : c.toNat < 128) : c.toLower.toNat < 128 := by
  have hc : c = Char.ofNat c.toNat := (Char.ofNat_toNat c).symm
  generalize c.toNat = n at h hc
  subst hc
  interval_cases n <;> decide

theorem map_lowerRune_blank (U : UnicodeTables) (l : List Char)
    (h : ∀ c ∈ l, c.toNat < 128 ∧ isSpace c = true) : l.map (lowerRune U) = l := by
  induction l with
  | nil => rfl
  | cons c l ih =>
    rw [List.map_cons, lowerRune_space U c (h c (List.mem_cons_self c l)).1
      (h c (List.mem_cons_self c l)).2, ih fun d hd => h d (List.mem_cons_of_mem c hd)]

theorem map_lowerRune_ascii (U : UnicodeTables) (l : List Char)
    (h : ∀ c ∈ l, c.toNat < 128) : l.map (lowerRune U) = l.map Char.toLower := by
  apply List.map_congr_left
  intro c hc
  simp [lowerRune, h c hc]

/-- White space around a sequence of runes does not change what trimming leaves. -/
theorem trim_pad (w1 l w2 : List Char) (h1 : ∀ c ∈ w1, isSpace c = true)
    (h2 : ∀ c ∈ w2, isSpace c = true) :
    (((w1 ++ l ++ w2).dropWhile isSpace).reverse.dropWhile isSpace).reverse =
      ((l.dropWhile isSpace).reverse.dropWhile isSpace).reverse := by
  have h2r : ∀ c ∈ w2.reverse, isSpace c = true := fun c hc => h2 c (List.mem_reverse.1 hc)
  rw [List.append_assoc, List.dropWhile_append_of_pos h1]
  by_cases hl : ∀ c ∈ l, isSpace c = true
  · have hall : ∀ c ∈ l ++ w2, isSpace c = true := by
      intro c hc
      rcases List.mem_append.1 hc with hc | hc
      · exact hl c hc
      · exact h2 c hc
    rw [List.dropWhile_eq_nil_iff.2 hall, List.dropWhile_eq_nil_iff.2 hl]
  · have hne : ¬ (l.dropWhile isSpace).isEmpty = true := by
      rw [List.isEmpty_iff, List.dropWhile_eq_nil_iff]
      exact hl
    rw [List.dropWhile_append, if_neg hne, List.reverse_append,
      List.dropWhile_append_of_pos h2r]

theorem normalised_pad (U : UnicodeTables) (p1 kl p2 : String) (h1 : isBlank p1)
    (h2 : isBlank p2) :
    TrimSpace (ToLower U (p1 ++ kl ++ p2)) = TrimSpace (ToLower U kl) := by
  simp only [TrimSpace, ToLower, String.data_append, List.map_append,
    map_lowerRune_blank U p1.data h1, map_lowerRune_blank U p2.data h2]
  rw [trim_pad _ _ _ (fun c hc => (h1 c hc).2) (fun c hc => (h2 c hc).2)]

theorem normalised_sameLetters (U : UnicodeTables) (s t : String) (hs : isAscii s)
    (ht : isAscii t) (h : sameLetters s t) :
    TrimSpace (ToLower U s) = TrimSpace (ToLower U t) := by
  simp only [ToLower, map_lowerRune_ascii U s.data hs, map_lowerRune_ascii U t.data ht]
  rw [show s.data.map Char.toLower = t.data.map Char.toLower from h]

/-- The query key enters `matchHooks` only through its trimmed, lower-cased form. -/
theorem matchHooks_key_congr (U : UnicodeTables) (m : Manager) (ck kl kl2 : String)
    (h : TrimSpace (ToLower U kl) = TrimSpace (ToLower U kl2)) :
    m.matchHooks U ck kl = m.matchHooks U ck kl2 := by
  simp only [Manager.matchHooks, h]

theorem foldRune_ascii (U : UnicodeTables) (a b : Char) (ha : a.toNat < 128)
    (hb : b.toNat < 128) : foldRune U a b = (a.toLower == b.toLower) := by
  simp only [foldRune, ha, hb, and_self, if_true]
  by_cases hab : a = b
  · subst hab
    simp
  · simp [hab]

theorem equalFoldRunes_sameLetters (U : UnicodeTables) (l r r2 : List Char)
    (hl : ∀ c ∈ l, c.toNat < 128) (hr : ∀ c ∈ r, c.toNat < 128)
    (hr2 : ∀ c ∈ r2, c.toNat < 128) (h : r.map Char.toLower = r2.map Char.toLower) :
    equalFoldRunes U l r = equalFoldRunes U l r2 := by
  induction l generalizing r r2 with
  | nil =>
    cases r with
    | nil =>
      cases r2 with
      | nil => rfl
      | cons b2 r2 => cases h
    | cons b r =>
      cases r2 with
      | nil => cases h
      | cons b2 r2 => rfl
  | cons a l ih =>
    cases r with
    | nil =>
      cases r2 with
      | nil => rfl
      | cons b2 r2 => cases h
    | cons b r =>
      cases r2 with
      | nil => cases h
      | cons b2 r2 =>
        simp only [List.map_cons, List.cons.injEq] at h
        have ha := hl a (List.mem_cons_self _ _)
        have hb := hr b (List.mem_cons_self _ _)
        have hb2 := hr2 b2 (List.mem_cons_self _ _)
        simp only [equalFoldRunes, foldRune_ascii U a b ha hb,
          foldRune_ascii U a b2 ha hb2, h.1]
        rw [ih r r2 (fun c hc => hl c (List.mem_cons_of_mem _ hc))
          (fun c hc => hr c (List.mem_cons_of_mem _ hc))
          (fun c hc => hr2 c (List.mem_cons_of_mem _ hc)) h.2]

/-- The trimmed, lower-cased form of an ASCII string is ASCII. -/
theorem normalised_ascii (U : UnicodeTables) (s : String) (hs : isAscii s) :
    ∀ c ∈ (TrimSpace (ToLower U s)).data, c.toNat < 128 := by
  intro c hc
  simp only [TrimSpace, ToLower, map_lowerRune_ascii U s.data hs, List.mem_reverse] at hc
  have h1 := (List.dropWhile_sublist _).subset hc
  rw [List.mem_reverse] at h1
  have h2 := (List.dropWhile_sublist _).subset h1
  obtain ⟨d, hd, hdc⟩ := List.mem_map.1 h2
  rw [← hdc]
  exact toLower_ascii d (hs d hd)

/-- For ASCII contexts, the case of the letters of the query context does not matter. -/
theorem hookMatches_context_congr (U : UnicodeTables) (ck ck2 kl : String)
    (hook : ActionHook) (hck : isAscii ck) (hck2 : isAscii ck2) (h : sameLetters ck ck2)
    (hh : isAscii hook.Context) :
    hookMatches U ck kl hook ↔ hookMatches U ck2 kl hook := by
  have he : EqualFold U (TrimSpace (ToLower U hook.Context)) ck
      = EqualFold U (TrimSpace (ToLower U hook.Context)) ck2 :=
    equalFoldRunes_sameLetters U _ _ _ (normalised_ascii U _ hh) hck hck2 h
  simp only [hookMatches, he]

/-- C22: the query is normalised asymmetrically.  `matchHooks(context, key)` does not
change when the query key is padded with ASCII white space on either side; for ASCII keys
it does not change when the case of the letters of the key changes; and for ASCII
contexts (of the query and of the configuration) it does not change when the case of the
letters of the query context changes.  The query context is not trimmed: the definition
with context `files` and key `c` is returned for the query context `files` and not for
`" files "`, whereas a definition whose configured context is `" files "` is returned for
the query context `files`. -/
theorem C22_query_normalisation (U : UnicodeTables) (m : Manager) (ck kl : String) :
    (∀ p1 p2, isBlank p1 → isBlank p2 →
      m.matchHooks U ck (p1 ++ kl ++ p2) = m.matchHooks U ck kl) ∧
    (∀ kl2, isAscii kl → isAscii kl2 → sameLetters kl kl2 →
      m.matchHooks U ck kl2 = m.matchHooks U ck kl) ∧
    (∀ ck2, isAscii ck → isAscii ck2 → sameLetters ck ck2 →
      (∀ hook ∈ m.configured, isAscii hook.Context) →
      m.matchHooks U ck2 kl = m.matchHooks U ck kl) ∧
    sampleManager.matchHooks U "files" "c" =
      [{ Context := "files", Key := "c", Before := "echo before", After := "echo after",
         LogOutput := false, AbortOnSuccess := false, AbortMessage := "" }] ∧
    sampleManager.matchHooks U " files " "c" = [] ∧
    paddedManager.matchHooks U "files" "c" =
      [{ Context := " files ", Key := "c", Before := "echo before", After := "",
         LogOutput := false, AbortOnSuccess := false, AbortMessage := "" }] := by
  refine ⟨?_, ?_, ?_, ?_, ?_, ?_⟩
  · intro p1 p2 h1 h2
    exact matchHooks_key_congr U m ck _ _ (normalised_pad U p1 kl p2 h1 h2)
  · intro kl2 h1 h2 h
    exact matchHooks_key_congr U m ck _ _ (normalised_sameLetters U kl kl2 h1 h2 h).symm
  · intro ck2 h1 h2 h hcfg
    rw [matchHooks_eq_filter, matchHooks_eq_filter]
    apply List.filter_congr
    intro hook hmem
    exact decide_eq_decide.2 (hookMatches_context_congr U ck ck2 kl hook h1 h2 h
      (hcfg hook hmem)).symm
  · rfl
  · rfl
  · rfl

/-- Witness of C22: the key `c` padded with a space and a tab, and the key `C`. -/
theorem C22_witness :
    sampleManager.matchHooks UnicodeTables.trivial "files" (" " ++ "c" ++ "\t")
      = sampleManager.matchHooks UnicodeTables.trivial "files" "c" ∧
    sampleManager.matchHooks UnicodeTables.trivial "files" "C"
      = sampleManager.matchHooks UnicodeTables.trivial "files" "c" ∧
    sampleManager.matchHooks UnicodeTables.trivial "FILES" "c"
      = sampleManager.matchHooks UnicodeTables.trivial "files" "c" :=
  ⟨(C22_query_normalisation UnicodeTables.trivial sampleManager "files" "c").1 " " "\t"
      (by
        show ∀ c ∈ [' '], c.toNat < 128 ∧ isSpace c = true
        decide)
      (by
        show ∀ c ∈ ['\t'], c.toNat < 128 ∧ isSpace c = true
        decide),
    (C22_query_normalisation UnicodeTables.trivial sampleManager "files" "c").2.1 "C"
      (by
        show ∀ c ∈ ['c'], c.toNat < 128
        decide)
      (by
        show ∀ c ∈ ['C'], c.toNat < 128
        decide)
      (by
        show ['c'].map Char.toLower = ['C'].map Char.toLower
        decide),
    (C22_query_normalisation UnicodeTables.trivial sampleManager "files" "c").2.2.1 "FILES"
      (by
        show ∀ c ∈ ['f', 'i', 'l', 'e', 's'], c.toNat < 128
        decide)
      (by
        show ∀ c ∈ ['F', 'I', 'L', 'E', 'S'], c.toNat < 128
        decide)
      (by
        show ['f', 'i', 'l', 'e', 's'].map Char.toLower
          = ['F', 'I', 'L', 'E', 'S'].map Char.toLower
        decide)
      (by
        show ∀ hook ∈
          [({ Context := "files", Key := "c", Before := "echo before", After := "echo after",
              LogOutput := false, AbortOnSuccess := false, AbortMessage := "" } : ActionHook)],
          ∀ c ∈ hook.Context.data, c.toNat < 128
        decide)⟩

/-! ## `RunSubprocess` and the coordinator -/

/-- C23: `RunSubprocess` reports to the coordinator once per call.  When
`registerActionHookCompletion` returned a callback, the callback is invoked exactly once,
after the subprocess, with `success = true` exactly when the subprocess returned
`err == nil` and `success == true`; if it is invoked with `true` and returns an error,
`RunSubprocess` returns the success flag of the subprocess and that error; in every other
case, and when no callback was registered (then nothing is invoked), it returns the
result of the subprocess unchanged. -/
theorem C23_RunSubprocess_reports_once
    (sub : CmdObj → Gui → Gui × Bool × Option GoError) (cmdObj : CmdObj) (gui : Gui) :
    let r0 := registerActionHookCompletion gui
    let s := sub cmdObj r0.1
    let res := RunSubprocess sub cmdObj gui
    (∀ c, r0.2 = some c →
      res.completionCalls = [decide (s.2.2 = none ∧ s.2.1 = true)] ∧
      res.gui = (c.call (decide (s.2.2 = none ∧ s.2.1 = true)) s.1).1 ∧
      res.success = s.2.1 ∧
      (s.2.2 = none → s.2.1 = true → ∀ compErr,
        (c.call true s.1).2 = some compErr → res.err = some compErr) ∧
      (s.2.2 = none → s.2.1 = true → (c.call true s.1).2 = none → res.err = s.2.2) ∧
      ((s.2.2 ≠ none ∨ s.2.1 = false) → res.err = s.2.2)) ∧
    (r0.2 = none →
      res.completionCalls = [] ∧ res.gui = s.1 ∧ res.success = s.2.1 ∧ res.err = s.2.2) := by
  intro r0 s res
  constructor
  · intro c hc
    by_cases hfail : s.2.2 ≠ none ∨ s.2.1 = false
    · have hd : decide (s.2.2 = none ∧ s.2.1 = true) = false := by
        rw [decide_eq_false_iff_not]
        rintro ⟨h1, h2⟩
        rcases hfail with h | h
        · exact h h1
        · rw [h2] at h
          cases h
      have hres : res = ⟨(c.call false s.1).1, s.2.1, s.2.2, [false]⟩ := by
        show RunSubprocess sub cmdObj gui = _
        unfold RunSubprocess
        simp only []
        rw [show (registerActionHookCompletion gui).2 = some c from hc]
        simp only []
        rw [if_pos hfail]
      rw [hd, hres]
      refine ⟨rfl, rfl, rfl, ?_, ?_, fun _ => rfl⟩
      · intro h1 h2
        rcases hfail with h | h
        · exact absurd h1 h
        · rw [h2] at h
          cases h
      · intro _ _ _
        rfl
    · have hok : s.2.2 = none ∧ s.2.1 = true := by
        simp only [not_or, not_not, Bool.not_eq_false] at hfail
        exact hfail
      have hd : decide (s.2.2 = none ∧ s.2.1 = true) = true := decide_eq_true hok
      rw [hd]
      cases hcall : (c.call true s.1).2 with
      | some compErr =>
        have hres : res = ⟨(c.call true s.1).1, s.2.1, some compErr, [true]⟩ := by
          show RunSubprocess sub cmdObj gui = _
          unfold RunSubprocess
          simp only []
          rw [show (registerActionHookCompletion gui).2 = some c from hc]
          simp only []
          rw [if_neg hfail]
          rw [show (c.call true (sub cmdObj (registerActionHookCompletion gui).1).1).2
            = some compErr from hcall]
        rw [hres]
        refine ⟨rfl, rfl, rfl, ?_, ?_, fun h => absurd h hfail⟩
        · intro _ _ x hx
          cases hx
          rfl
        · intro _ _ hx
          cases hx
      | none =>
        have hres : res = ⟨(c.call true s.1).1, s.2.1, s.2.2, [true]⟩ := by
          show RunSubprocess sub cmdObj gui = _
          unfold RunSubprocess
          simp only []
          rw [show (registerActionHookCompletion gui).2 = some c from hc]
          simp only []
          rw [if_neg hfail]
          rw [show (c.call true (sub cmdObj (registerActionHookCompletion gui).1).1).2
            = none from hcall]
        rw [hres]
        refine ⟨rfl, rfl, rfl, ?_, fun _ _ _ => rfl, fun h => absurd h hfail⟩
        intro _ _ x hx
        cases hx
  · intro hn
    have hres : res = ⟨s.1, s.2.1, s.2.2, []⟩ := by
      show RunSubprocess sub cmdObj gui = _
      unfold RunSubprocess
      simp only []
      rw [show (registerActionHookCompletion gui).2 = none from hn]
    rw [hres]
    exact ⟨rfl, rfl, rfl, rfl⟩

/-- Witness of C23: a successful subprocess while the Execution with the aborting
after-hook is active; the callback is invoked once with `true`, and `RunSubprocess`
returns the success flag with the abort that the callback returned. -/
theorem C23_witness :
    (RunSubprocess succeedingSubprocess
      { command := "git commit", shellFunctionsFile := "", dontLog := false, envVars := [] }
      (startActionHookExecution (some abortingExecution) sampleGui)).err
      = some (GoError.AbortError "Action aborted by hook") :=
  ((C23_RunSubprocess_reports_once succeedingSubprocess
    { command := "git commit", shellFunctionsFile := "", dontLog := false, envVars := [] }
    (startActionHookExecution (some abortingExecution) sampleGui)).1
      ⟨abortingExecution⟩ rfl).2.2.2.1 rfl rfl
      (GoError.AbortError "Action aborted by hook") (by decide)

/-! ## `finalize` without registered completions -/

end Lazygit
